import Mathlib

/-!
Verification of the CPMpy `Model` container (`src/cpmpy/model.py`) and of the
expression transformation pipeline described by the repository documentation.

The first part is a shallow embedding of `model.py`: python objects appearing
as constraints are modelled by the inductive type `PyCon` (a plain `Expression`,
an `NDVarArray` — which is both an `Expression` and a numpy array — or a plain
python list), and the mutating methods of `Model` become functions from model
states to model states, raising becoming an `Except.error` result.
-/

/-- A python value that can be passed to `Model.__add__`:
a plain `Expression` (carrying the result of its `is_bool()` method and an id),
an `NDVarArray` (an `Expression` subclass that is also a numpy array, hence
list-like, carrying its elements and its `is_bool()` result),
or a plain python list. -/
inductive PyCon where
  | expr (isBool : Bool) (id : Nat)
  | ndarr (cs : List PyCon) (isBool : Bool)
  | lst (cs : List PyCon)

/-- `isinstance(x, Expression)`: plain expressions and `NDVarArray`s. -/
def pyIsExpression : PyCon → Bool
  | .expr _ _ => true
  | .ndarr _ _ => true
  | .lst _ => false

/-- The `is_bool()` method of an `Expression`. -/
def pyIsBool : PyCon → Bool
  | .expr b _ => b
  | .ndarr _ b => b
  | .lst _ => false

/-- `isinstance(x, NDVarArray)`. -/
def pyIsND : PyCon → Bool
  | .ndarr _ _ => true
  | _ => false

/-- `is_any_list(x)`: true for python lists, tuples and numpy arrays
(`NDVarArray` is a numpy array). -/
def pyIsAnyList : PyCon → Bool
  | .lst _ => true
  | .ndarr _ _ => true
  | _ => false

/-- The elements obtained by iterating over a list-like value. -/
def pyElems : PyCon → List PyCon
  | .lst cs => cs
  | .ndarr cs _ => cs
  | c => [c]

/-- The check applied to each element of an added list in `Model.__add__`:
`isinstance(elem, Expression) and not elem.is_bool() and not isinstance(elem, NDVarArray)`. -/
def badElem (e : PyCon) : Bool :=
  pyIsExpression e && !pyIsBool e && !pyIsND e

/-- The error message raised by `Model.__add__` for non-boolean constraints. -/
def nonBoolMsg : String :=
  "Model error: constraints must be expressions that return a Boolean value"

/-- `Model.__add__` from `src/cpmpy/model.py`:
given the current `self.constraints` list and the added value, returns the new
constraints list, or the raised error. A raise happens before the final
`append`, so on error the constraints list is unchanged. -/
def model_add (C : List PyCon) (con : PyCon) : Except String (List PyCon) :=
  if pyIsAnyList con then
    let cs := pyElems con
    if cs.any badElem then
      .error nonBoolMsg
    else
      match cs with
      | [] => .ok C
      | [c] => .ok (C ++ [c])
      | _ => .ok (C ++ [con])
  else if pyIsExpression con && !pyIsBool con then
    .error nonBoolMsg
  else
    .ok (C ++ [con])

/-- Adding a sequence of values one by one (`for a in args: self += a`). -/
def addAll (C : List PyCon) (cs : List PyCon) : Except String (List PyCon) :=
  match cs with
  | [] => .ok C
  | c :: rest =>
    match model_add C c with
    | .error m => .error m
    | .ok C2 => addAll C2 rest

/-- The `SolverStatus` object; only its identity matters here. -/
structure PySolverStatus where
  name : String

/-- The `Model` object state: constraint list, stored objective with its
minimize/maximize tag, and the status of the last solver run. -/
structure PyModel where
  constraints : List PyCon
  objective_ : Option PyCon
  objective_is_min : Option Bool
  cpm_status : PySolverStatus

/-- `Model.objective(expr, minimize)`: overwrites the stored objective. -/
def model_objective (m : PyModel) (e : PyCon) (minimize : Bool) : PyModel :=
  { m with objective_ := some e, objective_is_min := some minimize }

/-- `Model.has_objective()`. -/
def model_has_objective (m : PyModel) : Bool :=
  m.objective_.isSome

/-- `Model.minimize(expr)`. -/
def model_minimize (m : PyModel) (e : PyCon) : PyModel :=
  model_objective m e true

/-- `Model.maximize(expr)`. -/
def model_maximize (m : PyModel) (e : PyCon) : PyModel :=
  model_objective m e false

/-- `Model.__init__(*args, minimize=None, maximize=None)`:
asserts that not both objectives are given, adds each positional argument
(with the historical single-list shortcut) through `__add__`, then stores the
objective via `maximize()` / `minimize()`. -/
def model_init (pos : List PyCon) (minimize maximize : Option PyCon) :
    Except String PyModel :=
  if minimize.isSome && maximize.isSome then
    .error "can not set both minimize and maximize"
  else
    let consResult :=
      match pos with
      | [a] => if pyIsAnyList a then addAll [] (pyElems a) else model_add [] a
      | _ => addAll [] pos
    match consResult with
    | .error m => .error m
    | .ok cs =>
      let m0 : PyModel := ⟨cs, none, none, ⟨"Model"⟩⟩
      let m1 := match maximize with
        | some e => model_maximize m0 e
        | none => m0
      let m2 := match minimize with
        | some e => model_minimize m1 e
        | none => m1
      .ok m2

/-- `Model.copy()`: rebuilds a model from the same constraint list, passing
the stored objective through the matching keyword. The python guard
`if self.objective_is_min:` takes the minimize branch only when the stored
tag is truthy, i.e. `True`. -/
def model_copy (m : PyModel) : Except String PyModel :=
  match m.objective_is_min with
  | some true => model_init [PyCon.lst m.constraints] m.objective_ none
  | _ => model_init [PyCon.lst m.constraints] none m.objective_

/-- The `NotSupportedError` message raised by `solve`/`solveAll` when
solver-specific kwargs are given without naming a solver. -/
def kwargsMsg : String :=
  "NotSupportedError: Specify the solver when using kwargs, since they are solver-specific"

/-- `Model.solve(solver=..., **kwargs)`.
Modelled from the spec: the external solving engine (`SolverLookup.get` and
the solver object's `solve`, absent from the sources) is a parameter `f`
reading the model and returning the boolean result and the new status; per
the module docstring, solving does not modify the constraints or objective
stored in the model, only `cpm_status` is replaced. -/
def model_solve (f : Option String → PyModel → Bool × PySolverStatus)
    (m : PyModel) (solver : Option String) (hasKwargs : Bool) :
    Except String (Bool × PyModel) :=
  if hasKwargs && solver.isNone then
    .error kwargsMsg
  else
    let r := f solver m
    .ok (r.1, { m with cpm_status := r.2 })

/-- `Model.solveAll(solver=..., **kwargs)`.
Modelled from the spec: the external solver call is the parameter `f`,
returning the number of solutions and the new status. -/
def model_solveAll (f : Option String → PyModel → Nat × PySolverStatus)
    (m : PyModel) (solver : Option String) (hasKwargs : Bool) :
    Except String (Nat × PyModel) :=
  if hasKwargs && solver.isNone then
    .error kwargsMsg
  else
    let r := f solver m
    .ok (r.1, { m with cpm_status := r.2 })

/-- `Model.objective_value()`: `return self.objective_.value()`.
The `value()` method of expressions is outside the sources; it is the
parameter `val`. When `objective_` is `None`, python raises an
`AttributeError` on the attribute access. -/
def model_objective_value (val : PyCon → Option Int) (m : PyModel) :
    Except String (Option Int) :=
  match m.objective_ with
  | none => .error "AttributeError: NoneType object has no attribute value"
  | some e => .ok (val e)

/-! ## Properties of the `Model` container -/

/-- A stored constraint that `Model.__add__` re-appends verbatim: a boolean
plain expression, or a list-like value of length at least two whose elements
pass the boolean check. -/
def addIdem : PyCon → Bool
  | .expr b _ => b
  | .ndarr cs _ => !(cs.any badElem) && decide (2 ≤ cs.length)
  | .lst cs => !(cs.any badElem) && decide (2 ≤ cs.length)

theorem model_add_of_addIdem (c : PyCon) (h : addIdem c = true) (C : List PyCon) :
    model_add C c = .ok (C ++ [c]) := by
  cases c with
  | expr b i =>
    simp only [addIdem] at h
    simp [model_add, pyIsAnyList, pyIsExpression, pyIsBool, h]
  | ndarr cs b =>
    simp only [addIdem, Bool.and_eq_true, Bool.not_eq_true', decide_eq_true_eq] at h
    simp only [model_add, pyIsAnyList, pyElems, h.1, Bool.false_eq_true, if_false]
    match cs, h.2 with
    | c1 :: c2 :: rest, _ => rfl
  | lst cs =>
    simp only [addIdem, Bool.and_eq_true, Bool.not_eq_true', decide_eq_true_eq] at h
    simp only [model_add, pyIsAnyList, pyElems, h.1, Bool.false_eq_true, if_false]
    match cs, h.2 with
    | c1 :: c2 :: rest, _ => rfl

theorem addAll_of_addIdem (cs : List PyCon) (h : cs.all addIdem = true)
    (C : List PyCon) : addAll C cs = .ok (C ++ cs) := by
  induction cs generalizing C with
  | nil => simp [addAll]
  | cons c rest ih =>
    simp only [List.all_cons, Bool.and_eq_true] at h
    simp [addAll, model_add_of_addIdem c h.1 C, ih h.2]

/-- Claim C2 (counterexample): an `NDVarArray` whose `is_bool()` is false —
an `Expression` that is not boolean-typed — passed inside an added list is
exempted by the explicit `not isinstance(elem, NDVarArray)` carve-out in
`Model.__add__` and is appended to the constraint list without any error. -/
theorem modelAdd_nonbool_ndarray_accepted :
    model_add [] (PyCon.lst [PyCon.ndarr [PyCon.expr false 0] false]) =
      Except.ok [PyCon.ndarr [PyCon.expr false 0] false] := by
  rfl

/-- Claim C2 (amended): adding a non-boolean plain `Expression`, directly or
via the constructor, raises the modeling error and leaves the constraint list
unchanged, and so does adding a list containing any non-boolean element that
is an `Expression` but not an `NDVarArray`; `NDVarArray` elements are exempt
from the check. -/
theorem modelAdd_rejects_nonbool (C : List PyCon) (i : Nat) (cs : List PyCon)
    (h : cs.any badElem = true) :
    model_add C (PyCon.expr false i) = Except.error nonBoolMsg ∧
    model_add C (PyCon.lst cs) = Except.error nonBoolMsg ∧
    model_init [PyCon.expr false i] none none = Except.error nonBoolMsg := by
  refine ⟨?_, ?_, ?_⟩
  · simp [model_add, pyIsAnyList, pyIsExpression, pyIsBool]
  · simp [model_add, pyIsAnyList, pyElems, h]
  · simp [model_init, model_add, pyIsAnyList, pyIsExpression, pyIsBool]

/-- Witness for the amended claim C2 at a concrete model and inputs. -/
theorem modelAdd_rejects_nonbool_witness :
    [PyCon.expr false 1].any badElem = true ∧
    (model_add [] (PyCon.expr false 0) = Except.error nonBoolMsg ∧
     model_add [] (PyCon.lst [PyCon.expr false 1]) = Except.error nonBoolMsg ∧
     model_init [PyCon.expr false 0] none none = Except.error nonBoolMsg) :=
  ⟨by decide, modelAdd_rejects_nonbool [] 0 [PyCon.expr false 1] (by decide)⟩

/-- Claim C4: a `Model` holds at most one objective. Constructing with both
`minimize` and `maximize` fails the assertion; `objective()` overwrites the
stored objective so only the last call is kept; a model built with no
objective is a satisfaction problem (`has_objective()` is false). -/
theorem model_at_most_one_objective (pos : List PyCon) (e1 e2 : PyCon)
    (m : PyModel) (b1 b2 : Bool) (m0 : PyModel)
    (hsat : model_init pos none none = Except.ok m0) :
    model_init pos (some e1) (some e2) =
      Except.error "can not set both minimize and maximize" ∧
    model_objective (model_objective m e1 b1) e2 b2 = model_objective m e2 b2 ∧
    model_has_objective m0 = false := by
  refine ⟨by simp [model_init], by simp [model_objective], ?_⟩
  simp only [model_init, Option.isSome_none, Bool.and_self, Bool.false_eq_true,
    if_false] at hsat
  cases hcons : (match pos with
      | [a] => if pyIsAnyList a then addAll [] (pyElems a) else model_add [] a
      | _ => addAll [] pos) with
  | error msg => rw [hcons] at hsat; exact absurd hsat (by simp)
  | ok cs =>
    rw [hcons] at hsat
    simp only [Except.ok.injEq] at hsat
    rw [← hsat]
    rfl

/-- Witness for claim C4 at concrete inputs. -/
theorem model_at_most_one_objective_witness :
    model_init [] none none = Except.ok ⟨[], none, none, ⟨"Model"⟩⟩ ∧
    (model_init [] (some (PyCon.expr true 0)) (some (PyCon.expr true 1)) =
       Except.error "can not set both minimize and maximize" ∧
     model_objective (model_objective ⟨[], none, none, ⟨"Model"⟩⟩ (PyCon.expr true 0) true)
         (PyCon.expr true 1) false =
       model_objective ⟨[], none, none, ⟨"Model"⟩⟩ (PyCon.expr true 1) false ∧
     model_has_objective ⟨[], none, none, ⟨"Model"⟩⟩ = false) :=
  ⟨rfl, model_at_most_one_objective [] (PyCon.expr true 0) (PyCon.expr true 1)
    ⟨[], none, none, ⟨"Model"⟩⟩ true false ⟨[], none, none, ⟨"Model"⟩⟩ rfl⟩

/-- Claim C6 (counterexample): `Model.copy()` is not always a shallow copy.
A nested singleton list holding a non-boolean expression passes `__add__`
(the inner list is not an `Expression`, so the element check skips it, and
the size-1 outer list is unpacked, storing the inner list) — yet `copy()`
re-adds the stored inner list, the element check now fires on the
non-boolean expression, and copy raises the modeling error instead of
returning a copy. -/
theorem model_copy_raises_on_stored_nested_list :
    model_add [] (PyCon.lst [PyCon.lst [PyCon.expr false 0]]) =
      Except.ok [PyCon.lst [PyCon.expr false 0]] ∧
    model_copy ⟨[PyCon.lst [PyCon.expr false 0]], none, none, ⟨"Model"⟩⟩ =
      Except.error nonBoolMsg :=
  ⟨rfl, rfl⟩

/-- Claim C6 (amended): `Model.copy()` is a shallow copy for models whose
stored constraints re-add verbatim through `__add__` — boolean plain
expressions, and list-like values of length at least two whose elements pass
the boolean check — and whose objective tag is consistent with the objective.
For such a model the copy carries the same constraint elements — the
`Expression` values are shared, only the list itself is rebuilt, so appending
to one model does not change the other — and the original objective
expression with its minimize/maximize tag; the solver status is freshly
initialized. (A stored constraint that re-adding rejects or restructures —
a nested singleton list holding a non-boolean expression, a stored
one-element list-like — makes `copy()` raise or alter the list instead.) -/
theorem model_copy_shallow (m : PyModel)
    (h1 : m.constraints.all addIdem = true)
    (h2 : m.objective_.isSome = m.objective_is_min.isSome) :
    model_copy m =
      Except.ok ⟨m.constraints, m.objective_, m.objective_is_min, ⟨"Model"⟩⟩ := by
  have hadd : addAll [] m.constraints = .ok m.constraints :=
    addAll_of_addIdem m.constraints h1 []
  cases hmin : m.objective_is_min with
  | none =>
    have hobj : m.objective_ = none := by
      rw [hmin] at h2
      simpa using h2
    simp [model_copy, hmin, hobj, model_init, pyIsAnyList, pyElems, hadd]
  | some b =>
    have hobj : ∃ e, m.objective_ = some e := by
      rw [hmin] at h2
      simp only [Option.isSome_some] at h2
      exact Option.isSome_iff_exists.mp h2
    obtain ⟨e, he⟩ := hobj
    cases b with
    | true =>
      simp [model_copy, hmin, he, model_init, pyIsAnyList, pyElems, hadd,
        model_minimize, model_objective]
    | false =>
      simp [model_copy, hmin, he, model_init, pyIsAnyList, pyElems, hadd,
        model_maximize, model_objective]

/-- Witness for claim C6 at a concrete model with two constraints and a
maximization objective. -/
theorem model_copy_shallow_witness :
    ([PyCon.expr true 0, PyCon.expr true 1].all addIdem = true ∧
     (some (PyCon.expr false 7)).isSome = (some false : Option Bool).isSome) ∧
    model_copy ⟨[PyCon.expr true 0, PyCon.expr true 1], some (PyCon.expr false 7),
        some false, ⟨"old"⟩⟩ =
      Except.ok ⟨[PyCon.expr true 0, PyCon.expr true 1], some (PyCon.expr false 7),
        some false, ⟨"Model"⟩⟩ :=
  ⟨⟨by decide, by decide⟩,
    model_copy_shallow ⟨[PyCon.expr true 0, PyCon.expr true 1],
      some (PyCon.expr false 7), some false, ⟨"old"⟩⟩ (by decide) (by decide)⟩

/-- Claim C8: on a satisfaction model (no objective stored),
`objective_value()` performs attribute access on `None` and raises, instead
of returning `None`. -/
theorem objective_value_raises_on_none (val : PyCon → Option Int) (m : PyModel)
    (h : m.objective_ = none) :
    model_objective_value val m =
      Except.error "AttributeError: NoneType object has no attribute value" := by
  simp [model_objective_value, h]

/-- Witness for claim C8 at a concrete satisfaction model. -/
theorem objective_value_raises_on_none_witness :
    (⟨[], none, none, ⟨"Model"⟩⟩ : PyModel).objective_ = none ∧
    model_objective_value (fun _ => none) ⟨[], none, none, ⟨"Model"⟩⟩ =
      Except.error "AttributeError: NoneType object has no attribute value" :=
  ⟨rfl, objective_value_raises_on_none (fun _ => none) ⟨[], none, none, ⟨"Model"⟩⟩ rfl⟩

/-- Claim C9: a successful `solve()` leaves the stored model intact — the
constraints list, the objective and its tag are the very same values — and
only `cpm_status` is replaced by the status reported by the solver run. -/
theorem solve_frame (f : Option String → PyModel → Bool × PySolverStatus)
    (m : PyModel) (solver : Option String) (kw : Bool) (r : Bool) (m2 : PyModel)
    (h : model_solve f m solver kw = Except.ok (r, m2)) :
    m2.constraints = m.constraints ∧ m2.objective_ = m.objective_ ∧
    m2.objective_is_min = m.objective_is_min ∧
    m2.cpm_status = (f solver m).2 := by
  simp only [model_solve] at h
  split at h
  · exact absurd h (by simp)
  · simp only [Except.ok.injEq, Prod.mk.injEq] at h
    rw [← h.2]
    exact ⟨rfl, rfl, rfl, rfl⟩

/-- Witness for claim C9 with a concrete external solver function. -/
theorem solve_frame_witness :
    model_solve (fun _ _ => (true, ⟨"sat"⟩)) ⟨[PyCon.expr true 0], none, none, ⟨"Model"⟩⟩
        (some "ortools") false =
      Except.ok (true, ⟨[PyCon.expr true 0], none, none, ⟨"sat"⟩⟩) ∧
    (⟨[PyCon.expr true 0], none, none, ⟨"sat"⟩⟩ : PyModel).constraints =
        (⟨[PyCon.expr true 0], none, none, ⟨"Model"⟩⟩ : PyModel).constraints ∧
      (⟨[PyCon.expr true 0], none, none, ⟨"sat"⟩⟩ : PyModel).objective_ =
        (⟨[PyCon.expr true 0], none, none, ⟨"Model"⟩⟩ : PyModel).objective_ ∧
      (⟨[PyCon.expr true 0], none, none, ⟨"sat"⟩⟩ : PyModel).objective_is_min =
        (⟨[PyCon.expr true 0], none, none, ⟨"Model"⟩⟩ : PyModel).objective_is_min ∧
      (⟨[PyCon.expr true 0], none, none, ⟨"sat"⟩⟩ : PyModel).cpm_status =
        ((fun _ _ => (true, ⟨"sat"⟩) :
            Option String → PyModel → Bool × PySolverStatus)
          (some "ortools") ⟨[PyCon.expr true 0], none, none, ⟨"Model"⟩⟩).2 :=
  ⟨rfl, solve_frame (fun _ _ => (true, ⟨"sat"⟩))
    ⟨[PyCon.expr true 0], none, none, ⟨"Model"⟩⟩ (some "ortools") false true
    ⟨[PyCon.expr true 0], none, none, ⟨"sat"⟩⟩ rfl⟩

/-- Claim C10: calling `solve()` or `solveAll()` with solver-specific kwargs
but no solver raises `NotSupportedError` for every possible external solver
function — the error does not depend on the solver at all, so no solver is
contacted — and no model state is produced by the failed call. -/
theorem solve_kwargs_need_solver
    (f : Option String → PyModel → Bool × PySolverStatus)
    (g : Option String → PyModel → Nat × PySolverStatus) (m : PyModel) :
    model_solve f m none true = Except.error kwargsMsg ∧
    model_solveAll g m none true = Except.error kwargsMsg := by
  exact ⟨by simp [model_solve], by simp [model_solveAll]⟩

/-! ## `Model.from_file` counter bookkeeping -/

/-- A decision variable as seen by `get_variables_model`: only its name
matters to the counter bookkeeping of `Model.from_file`. Python strings are
modelled as their character sequences. -/
structure PyVar where
  name : List Char
deriving DecidableEq

/-- `s.startswith(p)` on python strings. -/
def pyStartsWith (s p : List Char) : Bool :=
  p.isPrefixOf s

/-- Digit-sequence parsing: a nonempty all-digit string denotes a natural
number in base 10. -/
def pyDigits? (cs : List Char) : Option Nat :=
  if cs.isEmpty then none
  else if cs.all Char.isDigit then
    some (cs.foldl (fun n c => n * 10 + (c.toNat - 48)) 0)
  else none

/-- Python `int(s)` on a string: strips surrounding whitespace, accepts an
optional sign followed by digits, raises (here: `none`) otherwise. -/
def pyInt? (s : List Char) : Option Int :=
  let t := ((s.dropWhile Char.isWhitespace).reverse.dropWhile Char.isWhitespace).reverse
  match t with
  | '-' :: rest => (pyDigits? rest).map (fun n => -(n : Int))
  | '+' :: rest => (pyDigits? rest).map (fun n => (n : Int))
  | _ => (pyDigits? t).map (fun n => (n : Int))

/-- One iteration of the variable loop in `Model.from_file`: for a
`BV`-prefixed name, `bv_counter = max(bv_counter, int(name[2:])+1)` with the
parse failure swallowed by `except: pass`; `elif` the same for `IV`. -/
def fromFileStep (acc : Int × Int) (v : PyVar) : Int × Int :=
  if pyStartsWith v.name ['B', 'V'] then
    match pyInt? (v.name.drop 2) with
    | some k => (max acc.1 (k + 1), acc.2)
    | none => acc
  else if pyStartsWith v.name ['I', 'V'] then
    match pyInt? (v.name.drop 2) with
    | some k => (acc.1, max acc.2 (k + 1))
    | none => acc
  else acc

/-- The counter update of `Model.from_file`: starting from `(0, 0)`, scan the
loaded model variables, then raise the global `_BoolVarImpl.counter` /
`_IntVarImpl.counter` to at least the computed values. -/
def fromFileCounters (vs : List PyVar) (oldBV oldIV : Int) : Int × Int :=
  let c := vs.foldl fromFileStep (0, 0)
  (max oldBV c.1, max oldIV c.2)

theorem fromFileStep_mono (acc : Int × Int) (v : PyVar) :
    acc.1 ≤ (fromFileStep acc v).1 ∧ acc.2 ≤ (fromFileStep acc v).2 := by
  unfold fromFileStep
  split
  · split <;> simp [le_max_left]
  · split
    · split <;> simp [le_max_left]
    · exact ⟨le_refl _, le_refl _⟩

theorem fromFileFold_mono (vs : List PyVar) (acc : Int × Int) :
    acc.1 ≤ (vs.foldl fromFileStep acc).1 ∧
    acc.2 ≤ (vs.foldl fromFileStep acc).2 := by
  induction vs generalizing acc with
  | nil => exact ⟨le_refl _, le_refl _⟩
  | cons v rest ih =>
    have h1 := fromFileStep_mono acc v
    have h2 := ih (fromFileStep acc v)
    exact ⟨le_trans h1.1 h2.1, le_trans h1.2 h2.2⟩

theorem fromFileFold_bv_bound (vs : List PyVar) (acc : Int × Int) (v : PyVar)
    (k : Int) (hv : v ∈ vs) (hbv : pyStartsWith v.name ['B', 'V'] = true)
    (hk : pyInt? (v.name.drop 2) = some k) :
    k + 1 ≤ (vs.foldl fromFileStep acc).1 := by
  induction vs generalizing acc with
  | nil => cases hv
  | cons w rest ih =>
    rcases List.mem_cons.mp hv with heq | hmem
    · subst heq
      have hstep : k + 1 ≤ (fromFileStep acc v).1 := by
        simp [fromFileStep, hbv, hk, le_max_right]
      exact le_trans hstep (fromFileFold_mono rest (fromFileStep acc v)).1
    · exact ih (fromFileStep acc w) hmem

theorem fromFileFold_iv_bound (vs : List PyVar) (acc : Int × Int) (v : PyVar)
    (k : Int) (hv : v ∈ vs) (hiv : pyStartsWith v.name ['I', 'V'] = true)
    (hbv : pyStartsWith v.name ['B', 'V'] = false)
    (hk : pyInt? (v.name.drop 2) = some k) :
    k + 1 ≤ (vs.foldl fromFileStep acc).2 := by
  induction vs generalizing acc with
  | nil => cases hv
  | cons w rest ih =>
    rcases List.mem_cons.mp hv with heq | hmem
    · subst heq
      have hstep : k + 1 ≤ (fromFileStep acc v).2 := by
        simp [fromFileStep, hbv, hiv, hk, le_max_right]
      exact le_trans hstep (fromFileFold_mono rest (fromFileStep acc v)).2
    · exact ih (fromFileStep acc w) hmem

theorem iv_prefix_not_bv (s : List Char)
    (h : pyStartsWith s ['I', 'V'] = true) :
    pyStartsWith s ['B', 'V'] = false := by
  cases s with
  | nil => simp [pyStartsWith, List.isPrefixOf] at h
  | cons c rest =>
    simp only [pyStartsWith, List.isPrefixOf, Bool.and_eq_true, beq_iff_eq] at h ⊢
    rw [← h.1]
    simp

/-- Claim C5: after `Model.from_file` loads a model, the `BV`/`IV`
fresh-variable counters strictly exceed every index parsed from a loaded
`BV*` / `IV*` variable name; consequently any index at or above the new
counter — in particular the index a freshly created auxiliary variable takes,
per the spec's counter-based naming — differs from every loaded index, so no
fresh variable aliases a loaded variable's identity. -/
theorem fromFile_counters_exceed_loaded (vs : List PyVar) (oldBV oldIV : Int)
    (v : PyVar) (k : Int) (hv : v ∈ vs) :
    (pyStartsWith v.name ['B', 'V'] = true → pyInt? (v.name.drop 2) = some k →
      k < (fromFileCounters vs oldBV oldIV).1 ∧
      ∀ j : Int, (fromFileCounters vs oldBV oldIV).1 ≤ j → j ≠ k) ∧
    (pyStartsWith v.name ['I', 'V'] = true → pyInt? (v.name.drop 2) = some k →
      k < (fromFileCounters vs oldBV oldIV).2 ∧
      ∀ j : Int, (fromFileCounters vs oldBV oldIV).2 ≤ j → j ≠ k) := by
  constructor
  · intro hbv hk
    have hb := fromFileFold_bv_bound vs (0, 0) v k hv hbv hk
    have hlt : k < (fromFileCounters vs oldBV oldIV).1 := by
      simp only [fromFileCounters]
      omega
    exact ⟨hlt, fun j hj => by omega⟩
  · intro hiv hk
    have hb := fromFileFold_iv_bound vs (0, 0) v k hv hiv (iv_prefix_not_bv _ hiv) hk
    have hlt : k < (fromFileCounters vs oldBV oldIV).2 := by
      simp only [fromFileCounters]
      omega
    exact ⟨hlt, fun j hj => by omega⟩

/-- Witness for claim C5: a loaded model containing `BV3` and `IV10`. -/
theorem fromFile_counters_exceed_loaded_witness :
    (⟨['B', 'V', '3']⟩ : PyVar) ∈
        [(⟨['B', 'V', '3']⟩ : PyVar), ⟨['I', 'V', '1', '0']⟩] ∧
    ((pyStartsWith (⟨['B', 'V', '3']⟩ : PyVar).name ['B', 'V'] = true →
      pyInt? ((⟨['B', 'V', '3']⟩ : PyVar).name.drop 2) = some 3 →
      3 < (fromFileCounters [⟨['B', 'V', '3']⟩, ⟨['I', 'V', '1', '0']⟩] 0 0).1 ∧
      ∀ j : Int,
        (fromFileCounters [⟨['B', 'V', '3']⟩, ⟨['I', 'V', '1', '0']⟩] 0 0).1 ≤ j →
        j ≠ 3) ∧
     (pyStartsWith (⟨['B', 'V', '3']⟩ : PyVar).name ['I', 'V'] = true →
      pyInt? ((⟨['B', 'V', '3']⟩ : PyVar).name.drop 2) = some 3 →
      3 < (fromFileCounters [⟨['B', 'V', '3']⟩, ⟨['I', 'V', '1', '0']⟩] 0 0).2 ∧
      ∀ j : Int,
        (fromFileCounters [⟨['B', 'V', '3']⟩, ⟨['I', 'V', '1', '0']⟩] 0 0).2 ≤ j →
        j ≠ 3)) :=
  ⟨by decide,
    fromFile_counters_exceed_loaded [⟨['B', 'V', '3']⟩, ⟨['I', 'V', '1', '0']⟩]
      0 0 ⟨['B', 'V', '3']⟩ 3 (by decide)⟩

/-! ## The expression transformation pipeline

Modelled from the spec: the transformation passes themselves
(`transformations/normalize`, `transformations/flatten_model`, ...) are not
part of the published sources — only the package docstring listing them is —
so the expression data model and the `normalize` and `flatten` passes below
are built from the specification: a closed set of expression variants over
integer/boolean variables, with normalize collapsing nested associative
operators, canonicalizing comparison directions and pre-evaluating constant
subexpressions, and flatten introducing memoized auxiliary variables so each
constraint is one operator over variables and constants. -/

/-- Comparison operators of `Comparison(op, left, right)`. -/
inductive CmpOp where
  | eq | ne | lt | le | gt | ge
deriving DecidableEq

/-- Expression nodes: constants, variable references, comparisons, boolean
connectives, n-ary sums and negation — the closed variant set of the spec
restricted to the operators exercised by the pipeline model. -/
inductive Expr where
  | iconst (k : Int)
  | bconst (b : Bool)
  | var (v : Nat)
  | comp (op : CmpOp) (l r : Expr)
  | andE (xs : List Expr)
  | orE (xs : List Expr)
  | sum (xs : List Expr)
  | notE (x : Expr)

mutual
/-- Structural equality test for expressions. -/
def beqE : Expr → Expr → Bool
  | .iconst a, .iconst b => a == b
  | .bconst a, .bconst b => a == b
  | .var a, .var b => a == b
  | .comp o1 l1 r1, .comp o2 l2 r2 => o1 == o2 && beqE l1 l2 && beqE r1 r2
  | .andE xs, .andE ys => beqListE xs ys
  | .orE xs, .orE ys => beqListE xs ys
  | .sum xs, .sum ys => beqListE xs ys
  | .notE a, .notE b => beqE a b
  | _, _ => false
def beqListE : List Expr → List Expr → Bool
  | [], [] => true
  | x :: xs, y :: ys => beqE x y && beqListE xs ys
  | _, _ => false
end

theorem exprStrongInd (P : Expr → Prop)
    (h : ∀ e, (∀ x, sizeOf x < sizeOf e → P x) → P e) : ∀ e, P e := by
  intro e
  generalize hk : sizeOf e = k
  induction k using Nat.strong_induction_on generalizing e with
  | _ k ih =>
    subst hk
    exact h e (fun x hx => ih (sizeOf x) hx x rfl)

theorem sizeOf_lt_andE {x : Expr} {xs : List Expr} (h : x ∈ xs) :
    sizeOf x < sizeOf (Expr.andE xs) := by
  have := List.sizeOf_lt_of_mem h
  simp only [Expr.andE.sizeOf_spec]
  omega

theorem sizeOf_lt_orE {x : Expr} {xs : List Expr} (h : x ∈ xs) :
    sizeOf x < sizeOf (Expr.orE xs) := by
  have := List.sizeOf_lt_of_mem h
  simp only [Expr.orE.sizeOf_spec]
  omega

theorem sizeOf_lt_sumE {x : Expr} {xs : List Expr} (h : x ∈ xs) :
    sizeOf x < sizeOf (Expr.sum xs) := by
  have := List.sizeOf_lt_of_mem h
  simp only [Expr.sum.sizeOf_spec]
  omega

theorem beqListE_iff (xs : List Expr)
    (ih : ∀ x ∈ xs, ∀ b, beqE x b = true ↔ x = b) :
    ∀ ys, beqListE xs ys = true ↔ xs = ys := by
  induction xs with
  | nil => intro ys; cases ys <;> simp [beqListE]
  | cons x rest ihr =>
    intro ys
    cases ys with
    | nil => simp [beqListE]
    | cons y rys =>
      have hx := ih x (List.mem_cons_self x rest) y
      have hr := ihr (fun z hz b => ih z (List.mem_cons_of_mem x hz) b) rys
      simp [beqListE, hx, hr]

theorem beqE_iff : ∀ a b, beqE a b = true ↔ a = b := by
  intro a
  induction a using exprStrongInd with
  | _ a ih =>
    intro b
    cases a with
    | iconst k => cases b <;> simp [beqE]
    | bconst v => cases b <;> simp [beqE]
    | var v => cases b <;> simp [beqE]
    | comp op l r =>
      cases b <;> simp [beqE]
      case comp op2 l2 r2 =>
        have hl := ih l (by simp only [Expr.comp.sizeOf_spec]; omega) l2
        have hr := ih r (by simp only [Expr.comp.sizeOf_spec]; omega) r2
        simp [hl, hr]
        tauto
    | andE xs =>
      cases b <;> simp [beqE]
      case andE ys => exact beqListE_iff xs (fun x hx => ih x (sizeOf_lt_andE hx)) ys
    | orE xs =>
      cases b <;> simp [beqE]
      case orE ys => exact beqListE_iff xs (fun x hx => ih x (sizeOf_lt_orE hx)) ys
    | sum xs =>
      cases b <;> simp [beqE]
      case sum ys => exact beqListE_iff xs (fun x hx => ih x (sizeOf_lt_sumE hx)) ys
    | notE x =>
      cases b <;> simp [beqE]
      case notE y =>
        exact ih x (by simp only [Expr.notE.sizeOf_spec]; omega) y

instance : DecidableEq Expr := fun a b => decidable_of_iff (beqE a b = true) (beqE_iff a b)

/-- Booleans as the integers 0/1, as the spec treats boolean values. -/
def boolToInt (b : Bool) : Int :=
  if b then 1 else 0

/-- Semantics of a comparison operator. -/
def cmpEval : CmpOp → Int → Int → Bool
  | .eq, a, b => decide (a = b)
  | .ne, a, b => decide (a ≠ b)
  | .lt, a, b => decide (a < b)
  | .le, a, b => decide (a ≤ b)
  | .gt, a, b => decide (b < a)
  | .ge, a, b => decide (b ≤ a)

mutual
/-- Evaluation of an expression under an assignment of integers to variable
identities; boolean-valued nodes evaluate to 0/1, a value is true iff it is
nonzero. -/
def ev (σ : Nat → Int) : Expr → Int
  | .iconst k => k
  | .bconst b => boolToInt b
  | .var v => σ v
  | .comp op l r => boolToInt (cmpEval op (ev σ l) (ev σ r))
  | .andE xs => boolToInt (evAll σ xs)
  | .orE xs => boolToInt (evAny σ xs)
  | .sum xs => evSum σ xs
  | .notE x => boolToInt (decide (ev σ x = 0))
def evAll (σ : Nat → Int) : List Expr → Bool
  | [] => true
  | x :: xs => decide (ev σ x ≠ 0) && evAll σ xs
def evAny (σ : Nat → Int) : List Expr → Bool
  | [] => false
  | x :: xs => decide (ev σ x ≠ 0) || evAny σ xs
def evSum (σ : Nat → Int) : List Expr → Int
  | [] => 0
  | x :: xs => ev σ x + evSum σ xs
end

mutual
/-- Whether an expression contains any variable reference. -/
def hasVar : Expr → Bool
  | .iconst _ => false
  | .bconst _ => false
  | .var _ => true
  | .comp _ l r => hasVar l || hasVar r
  | .andE xs => hasVarList xs
  | .orE xs => hasVarList xs
  | .sum xs => hasVarList xs
  | .notE x => hasVar x
def hasVarList : List Expr → Bool
  | [] => false
  | x :: xs => hasVar x || hasVarList xs
end

mutual
/-- All variable identities of the expression are below `n`. -/
def varsBelow : Expr → Nat → Bool
  | .iconst _, _ => true
  | .bconst _, _ => true
  | .var v, n => decide (v < n)
  | .comp _ l r, n => varsBelow l n && varsBelow r n
  | .andE xs, n => varsBelowList xs n
  | .orE xs, n => varsBelowList xs n
  | .sum xs, n => varsBelowList xs n
  | .notE x, n => varsBelow x n
def varsBelowList : List Expr → Nat → Bool
  | [], _ => true
  | x :: xs, n => varsBelow x n && varsBelowList xs n
end

theorem evAll_eq (σ : Nat → Int) (xs : List Expr) :
    evAll σ xs = xs.all (fun x => decide (ev σ x ≠ 0)) := by
  induction xs with
  | nil => rfl
  | cons x rest ih => simp [evAll, ih]

theorem evAny_eq (σ : Nat → Int) (xs : List Expr) :
    evAny σ xs = xs.any (fun x => decide (ev σ x ≠ 0)) := by
  induction xs with
  | nil => rfl
  | cons x rest ih => simp [evAny, ih]

theorem evSum_eq (σ : Nat → Int) (xs : List Expr) :
    evSum σ xs = (xs.map (ev σ)).sum := by
  induction xs with
  | nil => rfl
  | cons x rest ih => simp [evSum, ih]

theorem hasVarList_eq (xs : List Expr) : hasVarList xs = xs.any hasVar := by
  induction xs with
  | nil => rfl
  | cons x rest ih => simp [hasVarList, ih]

theorem varsBelowList_eq (xs : List Expr) (n : Nat) :
    varsBelowList xs n = xs.all (fun x => varsBelow x n) := by
  induction xs with
  | nil => rfl
  | cons x rest ih => simp [varsBelowList, ih]

theorem evAll_congr (σa σb : Nat → Int) (xs ys : List Expr)
    (h : List.Forall₂ (fun a b => ev σa a = ev σb b) xs ys) :
    evAll σa xs = evAll σb ys := by
  induction h with
  | nil => rfl
  | cons hab htail ih => simp [evAll, hab, ih]

theorem evAny_congr (σa σb : Nat → Int) (xs ys : List Expr)
    (h : List.Forall₂ (fun a b => ev σa a = ev σb b) xs ys) :
    evAny σa xs = evAny σb ys := by
  induction h with
  | nil => rfl
  | cons hab htail ih => simp [evAny, hab, ih]

theorem evSum_congr (σa σb : Nat → Int) (xs ys : List Expr)
    (h : List.Forall₂ (fun a b => ev σa a = ev σb b) xs ys) :
    evSum σa xs = evSum σb ys := by
  induction h with
  | nil => rfl
  | cons hab htail ih => simp [evSum, hab, ih]

/-- Evaluation only depends on the variables the expression mentions:
assignments agreeing below `n` agree on expressions whose variables are
below `n`. -/
theorem ev_agree (e : Expr) : ∀ (n : Nat) (σ1 σ2 : Nat → Int),
    varsBelow e n = true → (∀ v, v < n → σ2 v = σ1 v) → ev σ2 e = ev σ1 e := by
  induction e using exprStrongInd with
  | _ e ih =>
    intro n σ1 σ2 hvb hag
    cases e with
    | iconst k => rfl
    | bconst b => rfl
    | var v =>
      simp only [varsBelow, decide_eq_true_eq] at hvb
      exact hag v hvb
    | comp op l r =>
      simp only [varsBelow, Bool.and_eq_true] at hvb
      have hl := ih l (by simp only [Expr.comp.sizeOf_spec]; omega) n σ1 σ2 hvb.1 hag
      have hr := ih r (by simp only [Expr.comp.sizeOf_spec]; omega) n σ1 σ2 hvb.2 hag
      simp [ev, hl, hr]
    | andE xs =>
      simp only [varsBelow, varsBelowList_eq, List.all_eq_true] at hvb
      have hpt : ∀ x ∈ xs, ev σ2 x = ev σ1 x := fun x hx =>
        ih x (sizeOf_lt_andE hx) n σ1 σ2 (hvb x hx) hag
      simp only [ev]
      rw [evAll_congr σ2 σ1 xs xs ((List.forall₂_same).mpr hpt)]
    | orE xs =>
      simp only [varsBelow, varsBelowList_eq, List.all_eq_true] at hvb
      have hpt : ∀ x ∈ xs, ev σ2 x = ev σ1 x := fun x hx =>
        ih x (sizeOf_lt_orE hx) n σ1 σ2 (hvb x hx) hag
      simp only [ev]
      rw [evAny_congr σ2 σ1 xs xs ((List.forall₂_same).mpr hpt)]
    | sum xs =>
      simp only [varsBelow, varsBelowList_eq, List.all_eq_true] at hvb
      have hpt : ∀ x ∈ xs, ev σ2 x = ev σ1 x := fun x hx =>
        ih x (sizeOf_lt_sumE hx) n σ1 σ2 (hvb x hx) hag
      simp only [ev]
      rw [evSum_congr σ2 σ1 xs xs ((List.forall₂_same).mpr hpt)]
    | notE x =>
      simp only [varsBelow] at hvb
      have hx := ih x (by simp only [Expr.notE.sizeOf_spec]; omega) n σ1 σ2 hvb hag
      simp [ev, hx]

theorem hasVar_false_varsBelow (e : Expr) : ∀ (n : Nat),
    hasVar e = false → varsBelow e n = true := by
  induction e using exprStrongInd with
  | _ e ih =>
    intro n h
    cases e with
    | iconst k => rfl
    | bconst b => rfl
    | var v => simp [hasVar] at h
    | comp op l r =>
      simp only [hasVar, Bool.or_eq_false_iff] at h
      have hl := ih l (by simp only [Expr.comp.sizeOf_spec]; omega) n h.1
      have hr := ih r (by simp only [Expr.comp.sizeOf_spec]; omega) n h.2
      simp [varsBelow, hl, hr]
    | andE xs =>
      simp only [hasVar, hasVarList_eq, List.any_eq_false] at h
      simp only [varsBelow, varsBelowList_eq, List.all_eq_true]
      exact fun x hx => ih x (sizeOf_lt_andE hx) n (Bool.not_eq_true (hasVar x) ▸ h x hx)
    | orE xs =>
      simp only [hasVar, hasVarList_eq, List.any_eq_false] at h
      simp only [varsBelow, varsBelowList_eq, List.all_eq_true]
      exact fun x hx => ih x (sizeOf_lt_orE hx) n (Bool.not_eq_true (hasVar x) ▸ h x hx)
    | sum xs =>
      simp only [hasVar, hasVarList_eq, List.any_eq_false] at h
      simp only [varsBelow, varsBelowList_eq, List.all_eq_true]
      exact fun x hx => ih x (sizeOf_lt_sumE hx) n (Bool.not_eq_true (hasVar x) ▸ h x hx)
    | notE x =>
      simp only [hasVar] at h
      exact ih x (by simp only [Expr.notE.sizeOf_spec]; omega) n h

/-- A variable-free expression evaluates the same under any assignment. -/
theorem ev_novar (e : Expr) (h : hasVar e = false) (σ1 σ2 : Nat → Int) :
    ev σ2 e = ev σ1 e :=
  ev_agree e 0 σ1 σ2 (hasVar_false_varsBelow e 0 h) (fun v hv => absurd hv (by omega))

/-- Splice the operand list of a directly nested `and` into its parent. -/
def splitAnd : Expr → List Expr
  | .andE ys => ys
  | e => [e]

/-- Splice the operand list of a directly nested `or` into its parent. -/
def splitOr : Expr → List Expr
  | .orE ys => ys
  | e => [e]

/-- Splice the operand list of a directly nested `sum` into its parent. -/
def splitSum : Expr → List Expr
  | .sum ys => ys
  | e => [e]

mutual
/-- Modelled from the spec: the normalize pass. A subexpression with no
variable dependency is pre-evaluated to its constant value; associative
`and`/`or`/`sum` operands are flattened to maximal arity (no `and` directly
nested in another `and`); comparisons are canonicalized to prefer `<=` over
`>=` and `<` over `>` by swapping operands. -/
def normE (e : Expr) : Expr :=
  if hasVar e then
    match e with
    | .comp op l r =>
      match op with
      | .ge => .comp .le (normE r) (normE l)
      | .gt => .comp .lt (normE r) (normE l)
      | op => .comp op (normE l) (normE r)
    | .andE xs => .andE ((normListE xs).flatMap splitAnd)
    | .orE xs => .orE ((normListE xs).flatMap splitOr)
    | .sum xs => .sum ((normListE xs).flatMap splitSum)
    | .notE x => .notE (normE x)
    | e => e
  else
    .iconst (ev (fun _ => 0) e)
def normListE : List Expr → List Expr
  | [] => []
  | x :: xs => normE x :: normListE xs
end

theorem normListE_eq (xs : List Expr) :
    normListE xs = xs.map normE := by
  induction xs with
  | nil => rfl
  | cons x rest ih => simp [normListE, ih]

theorem boolToInt_ne_zero (b : Bool) : decide (boolToInt b ≠ 0) = b := by
  cases b <;> simp [boolToInt]

theorem boolToInt_eq_zero (b : Bool) : decide (boolToInt b = 0) = !b := by
  cases b <;> simp [boolToInt]

theorem boolToInt_ne_zero_iff (b : Bool) : boolToInt b ≠ 0 ↔ b = true := by
  cases b <;> simp [boolToInt]

theorem all_congr_mem {α : Type} (l : List α) (f g : α → Bool)
    (h : ∀ a ∈ l, f a = g a) : l.all f = l.all g := by
  induction l with
  | nil => rfl
  | cons a rest ih =>
    simp only [List.all_cons, h a (List.mem_cons_self a rest)]
    rw [ih (fun b hb => h b (List.mem_cons_of_mem a hb))]

theorem evAll_append (σ : Nat → Int) (as bs : List Expr) :
    evAll σ (as ++ bs) = (evAll σ as && evAll σ bs) := by
  induction as with
  | nil => simp [evAll]
  | cons a rest ih => simp [evAll, ih, Bool.and_assoc]

theorem evAny_append (σ : Nat → Int) (as bs : List Expr) :
    evAny σ (as ++ bs) = (evAny σ as || evAny σ bs) := by
  induction as with
  | nil => simp [evAny]
  | cons a rest ih => simp [evAny, ih, Bool.or_assoc]

theorem evSum_append (σ : Nat → Int) (as bs : List Expr) :
    evSum σ (as ++ bs) = evSum σ as + evSum σ bs := by
  induction as with
  | nil => simp [evSum]
  | cons a rest ih => simp [evSum, ih]; ring

theorem evAll_splitAnd (σ : Nat → Int) (x : Expr) :
    evAll σ (splitAnd x) = decide (ev σ x ≠ 0) := by
  cases x <;> simp [splitAnd, evAll, ev, boolToInt_ne_zero, boolToInt_eq_zero]

theorem evAny_splitOr (σ : Nat → Int) (x : Expr) :
    evAny σ (splitOr x) = decide (ev σ x ≠ 0) := by
  cases x <;> simp [splitOr, evAny, ev, boolToInt_ne_zero, boolToInt_eq_zero]

theorem evSum_splitSum (σ : Nat → Int) (x : Expr) :
    evSum σ (splitSum x) = ev σ x := by
  cases x <;> simp [splitSum, evSum, ev]

theorem evAll_flatMap_splitAnd (σ : Nat → Int) (xs : List Expr) :
    evAll σ (xs.flatMap splitAnd) = evAll σ xs := by
  induction xs with
  | nil => rfl
  | cons x rest ih =>
    rw [List.flatMap_cons, evAll_append, evAll_splitAnd, ih]
    rfl

theorem evAny_flatMap_splitOr (σ : Nat → Int) (xs : List Expr) :
    evAny σ (xs.flatMap splitOr) = evAny σ xs := by
  induction xs with
  | nil => rfl
  | cons x rest ih =>
    rw [List.flatMap_cons, evAny_append, evAny_splitOr, ih]
    rfl

theorem evSum_flatMap_splitSum (σ : Nat → Int) (xs : List Expr) :
    evSum σ (xs.flatMap splitSum) = evSum σ xs := by
  induction xs with
  | nil => rfl
  | cons x rest ih =>
    rw [List.flatMap_cons, evSum_append, evSum_splitSum, ih]
    rfl

theorem hasVarList_append (as bs : List Expr) :
    hasVarList (as ++ bs) = (hasVarList as || hasVarList bs) := by
  simp [hasVarList_eq]

theorem hasVar_splitAnd (x : Expr) : hasVarList (splitAnd x) = hasVar x := by
  cases x <;> simp [splitAnd, hasVarList, hasVar]

theorem hasVar_splitOr (x : Expr) : hasVarList (splitOr x) = hasVar x := by
  cases x <;> simp [splitOr, hasVarList, hasVar]

theorem hasVar_splitSum (x : Expr) : hasVarList (splitSum x) = hasVar x := by
  cases x <;> simp [splitSum, hasVarList, hasVar]

theorem hasVarList_flatMap_splitAnd (xs : List Expr) :
    hasVarList (xs.flatMap splitAnd) = hasVarList xs := by
  induction xs with
  | nil => rfl
  | cons x rest ih =>
    rw [List.flatMap_cons, hasVarList_append, hasVar_splitAnd, ih]
    rfl

theorem hasVarList_flatMap_splitOr (xs : List Expr) :
    hasVarList (xs.flatMap splitOr) = hasVarList xs := by
  induction xs with
  | nil => rfl
  | cons x rest ih =>
    rw [List.flatMap_cons, hasVarList_append, hasVar_splitOr, ih]
    rfl

theorem hasVarList_flatMap_splitSum (xs : List Expr) :
    hasVarList (xs.flatMap splitSum) = hasVarList xs := by
  induction xs with
  | nil => rfl
  | cons x rest ih =>
    rw [List.flatMap_cons, hasVarList_append, hasVar_splitSum, ih]
    rfl

theorem varsBelowList_append (as bs : List Expr) (n : Nat) :
    varsBelowList (as ++ bs) n = (varsBelowList as n && varsBelowList bs n) := by
  simp [varsBelowList_eq]

theorem varsBelow_splitAnd (x : Expr) (n : Nat) :
    varsBelowList (splitAnd x) n = varsBelow x n := by
  cases x <;> simp [splitAnd, varsBelowList, varsBelow]

theorem varsBelow_splitOr (x : Expr) (n : Nat) :
    varsBelowList (splitOr x) n = varsBelow x n := by
  cases x <;> simp [splitOr, varsBelowList, varsBelow]

theorem varsBelow_splitSum (x : Expr) (n : Nat) :
    varsBelowList (splitSum x) n = varsBelow x n := by
  cases x <;> simp [splitSum, varsBelowList, varsBelow]

theorem varsBelowList_flatMap_splitAnd (xs : List Expr) (n : Nat) :
    varsBelowList (xs.flatMap splitAnd) n = varsBelowList xs n := by
  induction xs with
  | nil => rfl
  | cons x rest ih =>
    rw [List.flatMap_cons, varsBelowList_append, varsBelow_splitAnd, ih]
    rfl

theorem varsBelowList_flatMap_splitOr (xs : List Expr) (n : Nat) :
    varsBelowList (xs.flatMap splitOr) n = varsBelowList xs n := by
  induction xs with
  | nil => rfl
  | cons x rest ih =>
    rw [List.flatMap_cons, varsBelowList_append, varsBelow_splitOr, ih]
    rfl

theorem varsBelowList_flatMap_splitSum (xs : List Expr) (n : Nat) :
    varsBelowList (xs.flatMap splitSum) n = varsBelowList xs n := by
  induction xs with
  | nil => rfl
  | cons x rest ih =>
    rw [List.flatMap_cons, varsBelowList_append, varsBelow_splitSum, ih]
    rfl

theorem any_congr_mem {α : Type} (l : List α) (f g : α → Bool)
    (h : ∀ a ∈ l, f a = g a) : l.any f = l.any g := by
  induction l with
  | nil => rfl
  | cons a rest ih =>
    simp only [List.any_cons, h a (List.mem_cons_self a rest)]
    rw [ih (fun b hb => h b (List.mem_cons_of_mem a hb))]

theorem normE_neg (e : Expr) (h : hasVar e = false) :
    normE e = .iconst (ev (fun _ => 0) e) := by
  cases e with
  | iconst k => rw [normE, if_neg (by simp [h])] <;> simp
  | bconst b => rw [normE, if_neg (by simp [h])] <;> simp
  | var v => simp [hasVar] at h
  | comp op l r =>
    cases op <;> (rw [normE, if_neg (by simpa [hasVar] using h)]) <;> simp
  | andE xs => rw [normE, if_neg (by simpa [hasVar] using h)]
  | orE xs => rw [normE, if_neg (by simpa [hasVar] using h)]
  | sum xs => rw [normE, if_neg (by simpa [hasVar] using h)]
  | notE x => rw [normE, if_neg (by simpa [hasVar] using h)]

theorem normE_var (v : Nat) : normE (Expr.var v) = Expr.var v := by
  simp [normE, hasVar]

theorem normE_comp_pos (op : CmpOp) (l r : Expr)
    (h : hasVar (Expr.comp op l r) = true) :
    normE (Expr.comp op l r) =
      (match op with
      | .ge => .comp .le (normE r) (normE l)
      | .gt => .comp .lt (normE r) (normE l)
      | op => .comp op (normE l) (normE r)) := by
  cases op <;> (rw [normE, if_pos (by simpa [hasVar] using h)]) <;> simp

theorem normE_and_pos (xs : List Expr) (h : hasVar (Expr.andE xs) = true) :
    normE (Expr.andE xs) = .andE ((normListE xs).flatMap splitAnd) := by
  rw [normE, if_pos (by simpa [hasVar] using h)]

theorem normE_or_pos (xs : List Expr) (h : hasVar (Expr.orE xs) = true) :
    normE (Expr.orE xs) = .orE ((normListE xs).flatMap splitOr) := by
  rw [normE, if_pos (by simpa [hasVar] using h)]

theorem normE_sum_pos (xs : List Expr) (h : hasVar (Expr.sum xs) = true) :
    normE (Expr.sum xs) = .sum ((normListE xs).flatMap splitSum) := by
  rw [normE, if_pos (by simpa [hasVar] using h)]

theorem normE_not_pos (x : Expr) (h : hasVar (Expr.notE x) = true) :
    normE (Expr.notE x) = .notE (normE x) := by
  rw [normE, if_pos (by simpa [hasVar] using h)]

/-- Normalization neither introduces nor removes variable dependency. -/
theorem hasVar_normE (e : Expr) : hasVar (normE e) = hasVar e := by
  induction e using exprStrongInd with
  | _ e ih =>
    cases hv : hasVar e with
    | false => rw [normE_neg e hv]; rfl
    | true =>
      have hlist : ∀ xs : List Expr, (∀ x ∈ xs, sizeOf x < sizeOf e) →
          hasVarList (normListE xs) = hasVarList xs := by
        intro xs hxs
        rw [normListE_eq, hasVarList_eq, hasVarList_eq, List.any_map]
        exact any_congr_mem xs _ _ (fun x hx => ih x (hxs x hx))
      cases e with
      | iconst k => simp [hasVar] at hv
      | bconst b => simp [hasVar] at hv
      | var v => rw [normE_var]; exact hv
      | comp op l r =>
        have hl := ih l (by simp only [Expr.comp.sizeOf_spec]; omega)
        have hr := ih r (by simp only [Expr.comp.sizeOf_spec]; omega)
        rw [normE_comp_pos op l r hv]
        simp only [hasVar, Bool.or_eq_true] at hv
        cases op <;> simp [hasVar, hl, hr, Bool.or_eq_true] <;> tauto
      | andE xs =>
        rw [normE_and_pos xs hv]
        simp only [hasVar, hasVarList_flatMap_splitAnd]
        rw [hlist xs (fun x hx => sizeOf_lt_andE hx)]
        simpa [hasVar] using hv
      | orE xs =>
        rw [normE_or_pos xs hv]
        simp only [hasVar, hasVarList_flatMap_splitOr]
        rw [hlist xs (fun x hx => sizeOf_lt_orE hx)]
        simpa [hasVar] using hv
      | sum xs =>
        rw [normE_sum_pos xs hv]
        simp only [hasVar, hasVarList_flatMap_splitSum]
        rw [hlist xs (fun x hx => sizeOf_lt_sumE hx)]
        simpa [hasVar] using hv
      | notE x =>
        rw [normE_not_pos x hv]
        simp only [hasVar]
        rw [ih x (by simp only [Expr.notE.sizeOf_spec]; omega)]
        simpa [hasVar] using hv

/-- Normalization preserves evaluation under every assignment. -/
theorem normE_ev (e : Expr) : ∀ σ : Nat → Int, ev σ (normE e) = ev σ e := by
  induction e using exprStrongInd with
  | _ e ih =>
    intro σ
    cases hv : hasVar e with
    | false =>
      rw [normE_neg e hv]
      simp only [ev]
      exact ev_novar e hv σ (fun _ => 0)
    | true =>
      have hlist : ∀ xs : List Expr, (∀ x ∈ xs, sizeOf x < sizeOf e) →
          List.Forall₂ (fun a b => ev σ a = ev σ b) (normListE xs) xs := by
        intro xs hxs
        rw [normListE_eq]
        induction xs with
        | nil => exact List.Forall₂.nil
        | cons x rest ihr =>
          exact List.Forall₂.cons
            (ih x (hxs x (List.mem_cons_self x rest)) σ)
            (ihr (fun y hy => hxs y (List.mem_cons_of_mem x hy)))
      cases e with
      | iconst k => simp [hasVar] at hv
      | bconst b => simp [hasVar] at hv
      | var v => rw [normE_var]
      | comp op l r =>
        have hl := ih l (by simp only [Expr.comp.sizeOf_spec]; omega) σ
        have hr := ih r (by simp only [Expr.comp.sizeOf_spec]; omega) σ
        rw [normE_comp_pos op l r hv]
        cases op <;> simp [ev, hl, hr, cmpEval]
      | andE xs =>
        rw [normE_and_pos xs hv]
        simp only [ev, evAll_flatMap_splitAnd]
        rw [evAll_congr σ σ _ xs (hlist xs (fun x hx => sizeOf_lt_andE hx))]
      | orE xs =>
        rw [normE_or_pos xs hv]
        simp only [ev, evAny_flatMap_splitOr]
        rw [evAny_congr σ σ _ xs (hlist xs (fun x hx => sizeOf_lt_orE hx))]
      | sum xs =>
        rw [normE_sum_pos xs hv]
        simp only [ev, evSum_flatMap_splitSum]
        rw [evSum_congr σ σ _ xs (hlist xs (fun x hx => sizeOf_lt_sumE hx))]
      | notE x =>
        have hx := ih x (by simp only [Expr.notE.sizeOf_spec]; omega) σ
        rw [normE_not_pos x hv]
        simp [ev, hx]

/-- Normalization does not introduce new variables. -/
theorem varsBelow_normE (e : Expr) : ∀ n : Nat,
    varsBelow e n = true → varsBelow (normE e) n = true := by
  induction e using exprStrongInd with
  | _ e ih =>
    intro n hvb
    cases hv : hasVar e with
    | false => rw [normE_neg e hv]; rfl
    | true =>
      have hlist : ∀ xs : List Expr, (∀ x ∈ xs, sizeOf x < sizeOf e) →
          varsBelowList xs n = true → varsBelowList (normListE xs) n = true := by
        intro xs hxs hall
        rw [normListE_eq, varsBelowList_eq, List.all_map]
        rw [varsBelowList_eq, List.all_eq_true] at hall
        rw [List.all_eq_true]
        exact fun x hx => ih x (hxs x hx) n (hall x hx)
      cases e with
      | iconst k => rfl
      | bconst b => rfl
      | var v => rw [normE_var]; exact hvb
      | comp op l r =>
        simp only [varsBelow, Bool.and_eq_true] at hvb
        have hl := ih l (by simp only [Expr.comp.sizeOf_spec]; omega) n hvb.1
        have hr := ih r (by simp only [Expr.comp.sizeOf_spec]; omega) n hvb.2
        rw [normE_comp_pos op l r hv]
        cases op <;> simp [varsBelow, hl, hr]
      | andE xs =>
        rw [normE_and_pos xs hv]
        simp only [varsBelow, varsBelowList_flatMap_splitAnd]
        exact hlist xs (fun x hx => sizeOf_lt_andE hx) hvb
      | orE xs =>
        rw [normE_or_pos xs hv]
        simp only [varsBelow, varsBelowList_flatMap_splitOr]
        exact hlist xs (fun x hx => sizeOf_lt_orE hx) hvb
      | sum xs =>
        rw [normE_sum_pos xs hv]
        simp only [varsBelow, varsBelowList_flatMap_splitSum]
        exact hlist xs (fun x hx => sizeOf_lt_sumE hx) hvb
      | notE x =>
        rw [normE_not_pos x hv]
        simp only [varsBelow]
        exact ih x (by simp only [Expr.notE.sizeOf_spec]; omega) n hvb

/-- Comparison operators kept by canonicalization (`>=`/`>` are rewritten). -/
def canonOp : CmpOp → Bool
  | .ge => false
  | .gt => false
  | _ => true

def isAnd : Expr → Bool
  | .andE _ => true
  | _ => false

def isOr : Expr → Bool
  | .orE _ => true
  | _ => false

def isSum : Expr → Bool
  | .sum _ => true
  | _ => false

mutual
/-- The normal form invariant established by `normE`: canonical comparison
directions, no associative operator directly nested in an equal operator,
and every variable-free subexpression already folded to an integer
constant. -/
def isNormal : Expr → Bool
  | .iconst _ => true
  | .bconst _ => false
  | .var _ => true
  | .comp op l r => canonOp op && isNormal l && isNormal r && (hasVar l || hasVar r)
  | .andE xs => hasVarList xs && isNormalList xs && !(xs.any isAnd)
  | .orE xs => hasVarList xs && isNormalList xs && !(xs.any isOr)
  | .sum xs => hasVarList xs && isNormalList xs && !(xs.any isSum)
  | .notE x => hasVar x && isNormal x
def isNormalList : List Expr → Bool
  | [] => true
  | x :: xs => isNormal x && isNormalList xs
end

theorem isNormalList_eq (xs : List Expr) : isNormalList xs = xs.all isNormal := by
  induction xs with
  | nil => rfl
  | cons x rest ih => simp [isNormalList, ih]

theorem splitAnd_members (a : Expr) (ha : isNormal a = true) :
    ∀ y ∈ splitAnd a, isNormal y = true ∧ isAnd y = false := by
  intro y hy
  cases a with
  | andE zs =>
    simp only [splitAnd] at hy
    simp only [isNormal, isNormalList_eq, Bool.and_eq_true, Bool.not_eq_true',
      List.all_eq_true, List.any_eq_false] at ha
    exact ⟨ha.1.2 y hy, Bool.not_eq_true _ ▸ ha.2 y hy⟩
  | iconst k => simp only [splitAnd, List.mem_singleton] at hy; subst hy; exact ⟨ha, rfl⟩
  | bconst b => simp only [splitAnd, List.mem_singleton] at hy; subst hy; exact ⟨ha, rfl⟩
  | var v => simp only [splitAnd, List.mem_singleton] at hy; subst hy; exact ⟨ha, rfl⟩
  | comp op l r => simp only [splitAnd, List.mem_singleton] at hy; subst hy; exact ⟨ha, rfl⟩
  | orE zs => simp only [splitAnd, List.mem_singleton] at hy; subst hy; exact ⟨ha, rfl⟩
  | sum zs => simp only [splitAnd, List.mem_singleton] at hy; subst hy; exact ⟨ha, rfl⟩
  | notE x => simp only [splitAnd, List.mem_singleton] at hy; subst hy; exact ⟨ha, rfl⟩

theorem splitOr_members (a : Expr) (ha : isNormal a = true) :
    ∀ y ∈ splitOr a, isNormal y = true ∧ isOr y = false := by
  intro y hy
  cases a with
  | orE zs =>
    simp only [splitOr] at hy
    simp only [isNormal, isNormalList_eq, Bool.and_eq_true, Bool.not_eq_true',
      List.all_eq_true, List.any_eq_false] at ha
    exact ⟨ha.1.2 y hy, Bool.not_eq_true _ ▸ ha.2 y hy⟩
  | iconst k => simp only [splitOr, List.mem_singleton] at hy; subst hy; exact ⟨ha, rfl⟩
  | bconst b => simp only [splitOr, List.mem_singleton] at hy; subst hy; exact ⟨ha, rfl⟩
  | var v => simp only [splitOr, List.mem_singleton] at hy; subst hy; exact ⟨ha, rfl⟩
  | comp op l r => simp only [splitOr, List.mem_singleton] at hy; subst hy; exact ⟨ha, rfl⟩
  | andE zs => simp only [splitOr, List.mem_singleton] at hy; subst hy; exact ⟨ha, rfl⟩
  | sum zs => simp only [splitOr, List.mem_singleton] at hy; subst hy; exact ⟨ha, rfl⟩
  | notE x => simp only [splitOr, List.mem_singleton] at hy; subst hy; exact ⟨ha, rfl⟩

theorem splitSum_members (a : Expr) (ha : isNormal a = true) :
    ∀ y ∈ splitSum a, isNormal y = true ∧ isSum y = false := by
  intro y hy
  cases a with
  | sum zs =>
    simp only [splitSum] at hy
    simp only [isNormal, isNormalList_eq, Bool.and_eq_true, Bool.not_eq_true',
      List.all_eq_true, List.any_eq_false] at ha
    exact ⟨ha.1.2 y hy, Bool.not_eq_true _ ▸ ha.2 y hy⟩
  | iconst k => simp only [splitSum, List.mem_singleton] at hy; subst hy; exact ⟨ha, rfl⟩
  | bconst b => simp only [splitSum, List.mem_singleton] at hy; subst hy; exact ⟨ha, rfl⟩
  | var v => simp only [splitSum, List.mem_singleton] at hy; subst hy; exact ⟨ha, rfl⟩
  | comp op l r => simp only [splitSum, List.mem_singleton] at hy; subst hy; exact ⟨ha, rfl⟩
  | andE zs => simp only [splitSum, List.mem_singleton] at hy; subst hy; exact ⟨ha, rfl⟩
  | orE zs => simp only [splitSum, List.mem_singleton] at hy; subst hy; exact ⟨ha, rfl⟩
  | notE x => simp only [splitSum, List.mem_singleton] at hy; subst hy; exact ⟨ha, rfl⟩

theorem splitAnd_nonand (x : Expr) (h : isAnd x = false) : splitAnd x = [x] := by
  cases x <;> simp_all [splitAnd, isAnd]

theorem splitOr_nonor (x : Expr) (h : isOr x = false) : splitOr x = [x] := by
  cases x <;> simp_all [splitOr, isOr]

theorem splitSum_nonsum (x : Expr) (h : isSum x = false) : splitSum x = [x] := by
  cases x <;> simp_all [splitSum, isSum]

theorem flatMap_splitAnd_id (xs : List Expr) (h : xs.any isAnd = false) :
    xs.flatMap splitAnd = xs := by
  induction xs with
  | nil => rfl
  | cons x rest ih =>
    simp only [List.any_cons, Bool.or_eq_false_iff] at h
    rw [List.flatMap_cons, splitAnd_nonand x h.1, ih h.2]
    rfl

theorem flatMap_splitOr_id (xs : List Expr) (h : xs.any isOr = false) :
    xs.flatMap splitOr = xs := by
  induction xs with
  | nil => rfl
  | cons x rest ih =>
    simp only [List.any_cons, Bool.or_eq_false_iff] at h
    rw [List.flatMap_cons, splitOr_nonor x h.1, ih h.2]
    rfl

theorem flatMap_splitSum_id (xs : List Expr) (h : xs.any isSum = false) :
    xs.flatMap splitSum = xs := by
  induction xs with
  | nil => rfl
  | cons x rest ih =>
    simp only [List.any_cons, Bool.or_eq_false_iff] at h
    rw [List.flatMap_cons, splitSum_nonsum x h.1, ih h.2]
    rfl

theorem hasVarList_normListE (xs : List Expr) :
    hasVarList (normListE xs) = hasVarList xs := by
  rw [normListE_eq, hasVarList_eq, hasVarList_eq, List.any_map]
  exact any_congr_mem xs _ _ (fun x _ => hasVar_normE x)

/-- The output of normalization satisfies the normal form invariant. -/
theorem normE_isNormal (e : Expr) : isNormal (normE e) = true := by
  induction e using exprStrongInd with
  | _ e ih =>
    cases hv : hasVar e with
    | false => rw [normE_neg e hv]; rfl
    | true =>
      cases e with
      | iconst k => simp [hasVar] at hv
      | bconst b => simp [hasVar] at hv
      | var v => rw [normE_var]; rfl
      | comp op l r =>
        have hl := ih l (by simp only [Expr.comp.sizeOf_spec]; omega)
        have hr := ih r (by simp only [Expr.comp.sizeOf_spec]; omega)
        have hvl := hasVar_normE l
        have hvr := hasVar_normE r
        rw [normE_comp_pos op l r hv]
        simp only [hasVar, Bool.or_eq_true] at hv
        cases op <;>
          simp [isNormal, canonOp, hl, hr, hvl, hvr, Bool.or_eq_true] <;> tauto
      | andE xs =>
        have hmem : ∀ y ∈ (normListE xs).flatMap splitAnd,
            isNormal y = true ∧ isAnd y = false := by
          intro y hy
          rw [List.mem_flatMap] at hy
          obtain ⟨a, ha, hya⟩ := hy
          rw [normListE_eq, List.mem_map] at ha
          obtain ⟨x, hx, rfl⟩ := ha
          exact splitAnd_members (normE x) (ih x (sizeOf_lt_andE hx)) y hya
        rw [normE_and_pos xs hv]
        simp only [isNormal, Bool.and_eq_true, Bool.not_eq_true']
        refine ⟨⟨?_, ?_⟩, ?_⟩
        · rw [hasVarList_flatMap_splitAnd, hasVarList_normListE]
          simpa [hasVar] using hv
        · rw [isNormalList_eq, List.all_eq_true]
          exact fun y hy => (hmem y hy).1
        · rw [List.any_eq_false]
          intro y hy
          simp [(hmem y hy).2]
      | orE xs =>
        have hmem : ∀ y ∈ (normListE xs).flatMap splitOr,
            isNormal y = true ∧ isOr y = false := by
          intro y hy
          rw [List.mem_flatMap] at hy
          obtain ⟨a, ha, hya⟩ := hy
          rw [normListE_eq, List.mem_map] at ha
          obtain ⟨x, hx, rfl⟩ := ha
          exact splitOr_members (normE x) (ih x (sizeOf_lt_orE hx)) y hya
        rw [normE_or_pos xs hv]
        simp only [isNormal, Bool.and_eq_true, Bool.not_eq_true']
        refine ⟨⟨?_, ?_⟩, ?_⟩
        · rw [hasVarList_flatMap_splitOr, hasVarList_normListE]
          simpa [hasVar] using hv
        · rw [isNormalList_eq, List.all_eq_true]
          exact fun y hy => (hmem y hy).1
        · rw [List.any_eq_false]
          intro y hy
          simp [(hmem y hy).2]
      | sum xs =>
        have hmem : ∀ y ∈ (normListE xs).flatMap splitSum,
            isNormal y = true ∧ isSum y = false := by
          intro y hy
          rw [List.mem_flatMap] at hy
          obtain ⟨a, ha, hya⟩ := hy
          rw [normListE_eq, List.mem_map] at ha
          obtain ⟨x, hx, rfl⟩ := ha
          exact splitSum_members (normE x) (ih x (sizeOf_lt_sumE hx)) y hya
        rw [normE_sum_pos xs hv]
        simp only [isNormal, Bool.and_eq_true, Bool.not_eq_true']
        refine ⟨⟨?_, ?_⟩, ?_⟩
        · rw [hasVarList_flatMap_splitSum, hasVarList_normListE]
          simpa [hasVar] using hv
        · rw [isNormalList_eq, List.all_eq_true]
          exact fun y hy => (hmem y hy).1
        · rw [List.any_eq_false]
          intro y hy
          simp [(hmem y hy).2]
      | notE x =>
        rw [normE_not_pos x hv]
        simp only [isNormal, Bool.and_eq_true]
        refine ⟨?_, ih x (by simp only [Expr.notE.sizeOf_spec]; omega)⟩
        rw [hasVar_normE x]
        simpa [hasVar] using hv

/-- Normalization is the identity on expressions already in normal form. -/
theorem normE_of_isNormal (e : Expr) (h : isNormal e = true) : normE e = e := by
  induction e using exprStrongInd with
  | _ e ih =>
    cases e with
    | iconst k => rw [normE_neg (Expr.iconst k) rfl]; rfl
    | bconst b => simp [isNormal] at h
    | var v => exact normE_var v
    | comp op l r =>
      simp only [isNormal, Bool.and_eq_true] at h
      obtain ⟨⟨⟨hop, hnl⟩, hnr⟩, hvlr⟩ := h
      have hv : hasVar (Expr.comp op l r) = true := by
        simpa [hasVar] using hvlr
      rw [normE_comp_pos op l r hv]
      have hl := ih l (by simp only [Expr.comp.sizeOf_spec]; omega) hnl
      have hr := ih r (by simp only [Expr.comp.sizeOf_spec]; omega) hnr
      cases op <;> simp [canonOp] at hop ⊢ <;> exact ⟨hl, hr⟩
    | andE xs =>
      simp only [isNormal, Bool.and_eq_true, Bool.not_eq_true'] at h
      obtain ⟨⟨hvl, hns⟩, hno⟩ := h
      have hv : hasVar (Expr.andE xs) = true := by simpa [hasVar] using hvl
      rw [normE_and_pos xs hv]
      have hmap : normListE xs = xs := by
        rw [normListE_eq]
        have : ∀ x ∈ xs, normE x = x := by
          intro x hx
          refine ih x (sizeOf_lt_andE hx) ?_
          rw [isNormalList_eq, List.all_eq_true] at hns
          exact hns x hx
        rw [List.map_congr_left this]; exact List.map_id xs
      rw [hmap, flatMap_splitAnd_id xs hno]
    | orE xs =>
      simp only [isNormal, Bool.and_eq_true, Bool.not_eq_true'] at h
      obtain ⟨⟨hvl, hns⟩, hno⟩ := h
      have hv : hasVar (Expr.orE xs) = true := by simpa [hasVar] using hvl
      rw [normE_or_pos xs hv]
      have hmap : normListE xs = xs := by
        rw [normListE_eq]
        have : ∀ x ∈ xs, normE x = x := by
          intro x hx
          refine ih x (sizeOf_lt_orE hx) ?_
          rw [isNormalList_eq, List.all_eq_true] at hns
          exact hns x hx
        rw [List.map_congr_left this]; exact List.map_id xs
      rw [hmap, flatMap_splitOr_id xs hno]
    | sum xs =>
      simp only [isNormal, Bool.and_eq_true, Bool.not_eq_true'] at h
      obtain ⟨⟨hvl, hns⟩, hno⟩ := h
      have hv : hasVar (Expr.sum xs) = true := by simpa [hasVar] using hvl
      rw [normE_sum_pos xs hv]
      have hmap : normListE xs = xs := by
        rw [normListE_eq]
        have : ∀ x ∈ xs, normE x = x := by
          intro x hx
          refine ih x (sizeOf_lt_sumE hx) ?_
          rw [isNormalList_eq, List.all_eq_true] at hns
          exact hns x hx
        rw [List.map_congr_left this]; exact List.map_id xs
      rw [hmap, flatMap_splitSum_id xs hno]
    | notE x =>
      simp only [isNormal, Bool.and_eq_true] at h
      have hv : hasVar (Expr.notE x) = true := by simpa [hasVar] using h.1
      rw [normE_not_pos x hv]
      rw [ih x (by simp only [Expr.notE.sizeOf_spec]; omega) h.2]

/-- Normalizing twice equals normalizing once, expression by expression. -/
theorem normE_idem (e : Expr) : normE (normE e) = normE e :=
  normE_of_isNormal (normE e) (normE_isNormal e)

/-- Claim C7: the normalize pass is idempotent on constraint lists —
`normalize(normalize(L))` is structurally equal to `normalize(L)`. -/
theorem normalize_idempotent (L : List Expr) :
    normListE (normListE L) = normListE L := by
  rw [normListE_eq, normListE_eq, List.map_map]
  exact List.map_congr_left (fun e _ => normE_idem e)

/-- Flattening state: the fresh-variable counter, the memoization table
mapping already-flattened subexpressions to their auxiliary variable, and
the emitted auxiliary defining constraints. -/
structure FSt where
  counter : Nat
  memo : List (Expr × Nat)
  out : List Expr

/-- A flat atom: a variable reference or a constant. -/
def isAtom : Expr → Bool
  | .var _ => true
  | .iconst _ => true
  | .bconst _ => true
  | _ => false

/-- Memo lookup keyed by structural equality of the subexpression. -/
def lookupMemo (memo : List (Expr × Nat)) (e : Expr) : Option Nat :=
  (memo.find? (fun p => decide (p.1 = e))).map (fun p => p.2)

mutual
/-- Modelled from the spec: flattening an operand to an atom. Atoms are kept;
a compound operand is replaced by an auxiliary variable — the memoized one if
a structurally equal subexpression was flattened before, else a fresh
variable `v` whose defining constraint `v == (flattened node)` is emitted. -/
def flatArg (e : Expr) (s : FSt) : Expr × FSt :=
  if isAtom e then (e, s)
  else
    match lookupMemo s.memo e with
    | some v => (.var v, s)
    | none =>
      let p := flatNode e s
      let v := p.2.counter
      (.var v,
        ⟨v + 1, (e, v) :: p.2.memo, p.2.out ++ [.comp .eq (.var v) p.1]⟩)
/-- Rebuild a node with all its operands flattened to atoms. -/
def flatNode (e : Expr) (s : FSt) : Expr × FSt :=
  match e with
  | .comp op l r =>
    let pl := flatArg l s
    let pr := flatArg r pl.2
    (.comp op pl.1 pr.1, pr.2)
  | .andE xs =>
    let p := flatArgs xs s
    (.andE p.1, p.2)
  | .orE xs =>
    let p := flatArgs xs s
    (.orE p.1, p.2)
  | .sum xs =>
    let p := flatArgs xs s
    (.sum p.1, p.2)
  | .notE x =>
    let p := flatArg x s
    (.notE p.1, p.2)
  | e => (e, s)
/-- Flatten a list of operands left to right, threading the state. -/
def flatArgs (xs : List Expr) (s : FSt) : List Expr × FSt :=
  match xs with
  | [] => ([], s)
  | x :: rest =>
    let px := flatArg x s
    let pr := flatArgs rest px.2
    (px.1 :: pr.1, pr.2)
end

/-- Modelled from the spec: flattening one top-level constraint keeps its
top operator and flattens its operands to atoms, so the result has depth at
most one. -/
def flatTop (c : Expr) (s : FSt) : Expr × FSt :=
  if isAtom c then (c, s) else flatNode c s

/-- Flatten each top-level constraint in order. -/
def flatTops (cs : List Expr) (s : FSt) : List Expr × FSt :=
  match cs with
  | [] => ([], s)
  | c :: rest =>
    let pc := flatTop c s
    let pr := flatTops rest pc.2
    (pc.1 :: pr.1, pr.2)

/-- Modelled from the spec: the flattening pass on a constraint list, with
fresh auxiliary variables starting at `n`; the rewritten constraints are
followed by the emitted auxiliary defining constraints. -/
def flattenList (L : List Expr) (n : Nat) : List Expr :=
  let p := flatTops L ⟨n, [], []⟩
  p.1 ++ p.2.out

/-- The transformation pipeline of the claim: normalize, then flatten. -/
def transformPipeline (L : List Expr) (n : Nat) : List Expr :=
  flattenList (normListE L) n

/-- An assignment satisfies a constraint list when every constraint
evaluates to a nonzero value. -/
def satAll (σ : Nat → Int) (L : List Expr) : Prop :=
  ∀ c ∈ L, ev σ c ≠ 0

/-- State evolution of one flattening step: the counter never decreases,
memo entries persist, and the emitted constraint list only grows by
appending. -/
def stepMono (s s2 : FSt) : Prop :=
  s.counter ≤ s2.counter ∧ (∀ p ∈ s.memo, p ∈ s2.memo) ∧ ∃ t, s2.out = s.out ++ t

theorem stepMono_refl (s : FSt) : stepMono s s :=
  ⟨le_refl _, fun p hp => hp, [], by simp⟩

theorem stepMono_trans {s1 s2 s3 : FSt} (h1 : stepMono s1 s2)
    (h2 : stepMono s2 s3) : stepMono s1 s3 := by
  obtain ⟨hc1, hm1, t1, ho1⟩ := h1
  obtain ⟨hc2, hm2, t2, ho2⟩ := h2
  exact ⟨le_trans hc1 hc2, fun p hp => hm2 p (hm1 p hp),
    t1 ++ t2, by rw [ho2, ho1, List.append_assoc]⟩

theorem flatArgs_mono_of (xs : List Expr)
    (h : ∀ x ∈ xs, ∀ s : FSt, stepMono s (flatArg x s).2) :
    ∀ s : FSt, stepMono s (flatArgs xs s).2 := by
  induction xs with
  | nil => intro s; rw [flatArgs]; exact stepMono_refl s
  | cons x rest ih =>
    intro s
    rw [flatArgs]
    exact stepMono_trans (h x (List.mem_cons_self x rest) s)
      (ih (fun y hy s2 => h y (List.mem_cons_of_mem x hy) s2) (flatArg x s).2)

theorem flatNode_mono_of (e : Expr)
    (h : ∀ x, sizeOf x < sizeOf e → ∀ s : FSt, stepMono s (flatArg x s).2) :
    ∀ s : FSt, stepMono s (flatNode e s).2 := by
  intro s
  cases e with
  | iconst k => rw [flatNode] <;> simp <;> exact stepMono_refl s
  | bconst b => rw [flatNode] <;> simp <;> exact stepMono_refl s
  | var v => rw [flatNode] <;> simp <;> exact stepMono_refl s
  | comp op l r =>
    rw [flatNode]
    exact stepMono_trans
      (h l (by simp only [Expr.comp.sizeOf_spec]; omega) s)
      (h r (by simp only [Expr.comp.sizeOf_spec]; omega) (flatArg l s).2)
  | andE xs =>
    rw [flatNode]
    exact flatArgs_mono_of xs (fun x hx => h x (sizeOf_lt_andE hx)) s
  | orE xs =>
    rw [flatNode]
    exact flatArgs_mono_of xs (fun x hx => h x (sizeOf_lt_orE hx)) s
  | sum xs =>
    rw [flatNode]
    exact flatArgs_mono_of xs (fun x hx => h x (sizeOf_lt_sumE hx)) s
  | notE x =>
    rw [flatNode]
    exact h x (by simp only [Expr.notE.sizeOf_spec]; omega) s

theorem flatArg_mono (e : Expr) : ∀ s : FSt, stepMono s (flatArg e s).2 := by
  induction e using exprStrongInd with
  | _ e ih =>
    intro s
    rw [flatArg]
    by_cases ha : isAtom e = true
    · simp only [ha, if_true]
      exact stepMono_refl s
    · simp only [ha, Bool.false_eq_true, if_false]
      cases hl : lookupMemo s.memo e with
      | some v => exact stepMono_refl s
      | none =>
        have hm := flatNode_mono_of e ih s
        refine stepMono_trans hm ⟨by simp, fun p hp => List.mem_cons_of_mem _ hp, ?_⟩
        exact ⟨[Expr.comp .eq (.var (flatNode e s).2.counter) (flatNode e s).1], rfl⟩

theorem flatArgs_mono (xs : List Expr) (s : FSt) : stepMono s (flatArgs xs s).2 :=
  flatArgs_mono_of xs (fun x _ => flatArg_mono x) s

theorem flatNode_mono (e : Expr) (s : FSt) : stepMono s (flatNode e s).2 :=
  flatNode_mono_of e (fun x _ => flatArg_mono x) s

theorem flatTop_mono (c : Expr) (s : FSt) : stepMono s (flatTop c s).2 := by
  rw [flatTop]
  by_cases ha : isAtom c = true
  · simp only [ha, if_true]; exact stepMono_refl s
  · simp only [ha, Bool.false_eq_true, if_false]; exact flatNode_mono c s

theorem flatTops_mono (cs : List Expr) : ∀ s : FSt, stepMono s (flatTops cs s).2 := by
  induction cs with
  | nil => intro s; rw [flatTops]; exact stepMono_refl s
  | cons c rest ih =>
    intro s
    rw [flatTops]
    exact stepMono_trans (flatTop_mono c s) (ih (flatTop c s).2)

/-- Flattening state invariant: the counter is at least `n` (the first
auxiliary index), memo entries bind auxiliary variables in `[n, counter)` to
subexpressions over the original variables, and no two entries share an
auxiliary variable. -/
def stWF (n : Nat) (s : FSt) : Prop :=
  n ≤ s.counter ∧
  (∀ p ∈ s.memo, n ≤ p.2 ∧ p.2 < s.counter ∧ varsBelow p.1 n = true) ∧
  s.memo.Pairwise (fun p q => p.2 ≠ q.2)

theorem flatArgs_wf_of (n : Nat) (xs : List Expr)
    (h : ∀ x ∈ xs, ∀ s : FSt, varsBelow x n = true → stWF n s → stWF n (flatArg x s).2) :
    ∀ s : FSt, varsBelowList xs n = true → stWF n s → stWF n (flatArgs xs s).2 := by
  induction xs with
  | nil => intro s _ hs; rw [flatArgs]; exact hs
  | cons x rest ih =>
    intro s hvb hs
    simp only [varsBelowList, Bool.and_eq_true] at hvb
    rw [flatArgs]
    exact ih (fun y hy => h y (List.mem_cons_of_mem x hy)) (flatArg x s).2 hvb.2
      (h x (List.mem_cons_self x rest) s hvb.1 hs)

theorem flatNode_wf_of (n : Nat) (e : Expr)
    (h : ∀ x, sizeOf x < sizeOf e →
      ∀ s : FSt, varsBelow x n = true → stWF n s → stWF n (flatArg x s).2) :
    ∀ s : FSt, varsBelow e n = true → stWF n s → stWF n (flatNode e s).2 := by
  intro s hvb hs
  cases e with
  | iconst k => rw [flatNode] <;> simp <;> exact hs
  | bconst b => rw [flatNode] <;> simp <;> exact hs
  | var v => rw [flatNode] <;> simp <;> exact hs
  | comp op l r =>
    simp only [varsBelow, Bool.and_eq_true] at hvb
    rw [flatNode]
    exact h r (by simp only [Expr.comp.sizeOf_spec]; omega) _ hvb.2
      (h l (by simp only [Expr.comp.sizeOf_spec]; omega) s hvb.1 hs)
  | andE xs =>
    rw [flatNode]
    exact flatArgs_wf_of n xs (fun x hx => h x (sizeOf_lt_andE hx)) s hvb hs
  | orE xs =>
    rw [flatNode]
    exact flatArgs_wf_of n xs (fun x hx => h x (sizeOf_lt_orE hx)) s hvb hs
  | sum xs =>
    rw [flatNode]
    exact flatArgs_wf_of n xs (fun x hx => h x (sizeOf_lt_sumE hx)) s hvb hs
  | notE x =>
    rw [flatNode]
    exact h x (by simp only [Expr.notE.sizeOf_spec]; omega) s hvb hs

theorem flatArg_wf (e : Expr) : ∀ (n : Nat) (s : FSt),
    varsBelow e n = true → stWF n s → stWF n (flatArg e s).2 := by
  induction e using exprStrongInd with
  | _ e ih =>
    intro n s hvb hs
    rw [flatArg]
    by_cases ha : isAtom e = true
    · simp only [ha, if_true]
      exact hs
    · simp only [ha, Bool.false_eq_true, if_false]
      cases hl : lookupMemo s.memo e with
      | some v => exact hs
      | none =>
        have hs1 : stWF n (flatNode e s).2 :=
          flatNode_wf_of n e (fun x hx => ih x hx n) s hvb hs
        obtain ⟨hc1, hm1, hp1⟩ := hs1
        refine ⟨by simp only []; omega, ?_, ?_⟩
        · intro p hp
          simp only [List.mem_cons] at hp
          rcases hp with rfl | hp
          · exact ⟨hc1, by simp, hvb⟩
          · obtain ⟨h1, h2, h3⟩ := hm1 p hp
            exact ⟨h1, by simp only []; omega, h3⟩
        · refine List.Pairwise.cons ?_ hp1
          intro q hq
          have := (hm1 q hq).2.1
          simp only []
          omega

theorem flatTop_wf (c : Expr) (n : Nat) (s : FSt)
    (hvb : varsBelow c n = true) (hs : stWF n s) : stWF n (flatTop c s).2 := by
  rw [flatTop]
  by_cases ha : isAtom c = true
  · simp only [ha, if_true]; exact hs
  · simp only [ha, Bool.false_eq_true, if_false]
    exact flatNode_wf_of n c (fun x _ => flatArg_wf x n) s hvb hs

theorem flatTops_wf (cs : List Expr) : ∀ (n : Nat) (s : FSt),
    varsBelowList cs n = true → stWF n s → stWF n (flatTops cs s).2 := by
  induction cs with
  | nil => intro n s _ hs; rw [flatTops]; exact hs
  | cons c rest ih =>
    intro n s hvb hs
    simp only [varsBelowList, Bool.and_eq_true] at hvb
    rw [flatTops]
    exact ih n (flatTop c s).2 hvb.2 (flatTop_wf c n s hvb.1 hs)

/-! Soundness of flattening: under any assignment satisfying the emitted
definitional constraints, every flattened atom evaluates to the value of the
subexpression it replaced. -/

/-- All memo entries agree with the assignment: the auxiliary variable holds
the value of the expression it abbreviates. -/
def memoGoodS (σ : Nat → Int) (memo : List (Expr × Nat)) : Prop :=
  ∀ p ∈ memo, σ p.2 = ev σ p.1

theorem eq_constraint_sat (σ : Nat → Int) (a b : Expr) :
    ev σ (Expr.comp .eq a b) ≠ 0 ↔ ev σ a = ev σ b := by
  simp [ev, cmpEval, boolToInt_ne_zero_iff]

theorem satAll_append_left {σ : Nat → Int} {as bs : List Expr}
    (h : satAll σ (as ++ bs)) : satAll σ as :=
  fun c hc => h c (List.mem_append_left bs hc)

theorem satAll_mono_out {σ : Nat → Int} {s s2 : FSt} (hm : stepMono s s2)
    (h : satAll σ s2.out) : satAll σ s.out := by
  obtain ⟨_, _, t, ho⟩ := hm
  rw [ho] at h
  exact satAll_append_left h

theorem flatNode_atom (e : Expr) (s : FSt) (h : isAtom e = true) :
    flatNode e s = (e, s) := by
  cases e with
  | var v => rw [flatNode] <;> simp
  | iconst k => rw [flatNode] <;> simp
  | bconst b => rw [flatNode] <;> simp
  | comp op l r => simp [isAtom] at h
  | andE xs => simp [isAtom] at h
  | orE xs => simp [isAtom] at h
  | sum xs => simp [isAtom] at h
  | notE x => simp [isAtom] at h

theorem flatArgs_sound_of (σ : Nat → Int) (xs : List Expr)
    (h : ∀ x ∈ xs, ∀ s : FSt, satAll σ (flatArg x s).2.out →
      memoGoodS σ s.memo →
      memoGoodS σ (flatArg x s).2.memo ∧ ev σ (flatArg x s).1 = ev σ x) :
    ∀ s : FSt, satAll σ (flatArgs xs s).2.out → memoGoodS σ s.memo →
      memoGoodS σ (flatArgs xs s).2.memo ∧
      List.Forall₂ (fun a b => ev σ a = ev σ b) (flatArgs xs s).1 xs := by
  induction xs with
  | nil =>
    intro s hout hmg
    rw [flatArgs]
    exact ⟨hmg, List.Forall₂.nil⟩
  | cons x rest ih =>
    intro s hout hmg
    rw [flatArgs] at hout ⊢
    have houtx : satAll σ (flatArg x s).2.out :=
      satAll_mono_out (flatArgs_mono rest (flatArg x s).2) hout
    have hx := h x (List.mem_cons_self x rest) s houtx hmg
    have hr := ih (fun y hy => h y (List.mem_cons_of_mem x hy)) (flatArg x s).2
      hout hx.1
    exact ⟨hr.1, List.Forall₂.cons hx.2 hr.2⟩

theorem flatNode_sound_of (σ : Nat → Int) (e : Expr)
    (h : ∀ x, sizeOf x < sizeOf e → ∀ s : FSt, satAll σ (flatArg x s).2.out →
      memoGoodS σ s.memo →
      memoGoodS σ (flatArg x s).2.memo ∧ ev σ (flatArg x s).1 = ev σ x) :
    ∀ s : FSt, satAll σ (flatNode e s).2.out → memoGoodS σ s.memo →
      memoGoodS σ (flatNode e s).2.memo ∧ ev σ (flatNode e s).1 = ev σ e := by
  intro s hout hmg
  cases e with
  | iconst k => rw [flatNode_atom (Expr.iconst k) s rfl]; exact ⟨hmg, rfl⟩
  | bconst b => rw [flatNode_atom (Expr.bconst b) s rfl]; exact ⟨hmg, rfl⟩
  | var v => rw [flatNode_atom (Expr.var v) s rfl]; exact ⟨hmg, rfl⟩
  | comp op l r =>
    rw [flatNode] at hout ⊢
    have houtl : satAll σ (flatArg l s).2.out :=
      satAll_mono_out (flatArg_mono r (flatArg l s).2) hout
    have hl := h l (by simp only [Expr.comp.sizeOf_spec]; omega) s houtl hmg
    have hr := h r (by simp only [Expr.comp.sizeOf_spec]; omega) (flatArg l s).2
      hout hl.1
    refine ⟨hr.1, ?_⟩
    simp only [ev, hl.2, hr.2]
  | andE xs =>
    rw [flatNode] at hout ⊢
    have hx := flatArgs_sound_of σ xs (fun x hx => h x (sizeOf_lt_andE hx)) s hout hmg
    refine ⟨hx.1, ?_⟩
    simp only [ev]
    rw [evAll_congr σ σ _ xs hx.2]
  | orE xs =>
    rw [flatNode] at hout ⊢
    have hx := flatArgs_sound_of σ xs (fun x hx => h x (sizeOf_lt_orE hx)) s hout hmg
    refine ⟨hx.1, ?_⟩
    simp only [ev]
    rw [evAny_congr σ σ _ xs hx.2]
  | sum xs =>
    rw [flatNode] at hout ⊢
    have hx := flatArgs_sound_of σ xs (fun x hx => h x (sizeOf_lt_sumE hx)) s hout hmg
    refine ⟨hx.1, ?_⟩
    simp only [ev]
    rw [evSum_congr σ σ _ xs hx.2]
  | notE x =>
    rw [flatNode] at hout ⊢
    have hx := h x (by simp only [Expr.notE.sizeOf_spec]; omega) s hout hmg
    refine ⟨hx.1, ?_⟩
    simp only [ev, hx.2]

theorem lookupMemo_mem (memo : List (Expr × Nat)) (e : Expr) (v : Nat)
    (h : lookupMemo memo e = some v) : (e, v) ∈ memo := by
  simp only [lookupMemo, Option.map_eq_some'] at h
  obtain ⟨p, hp, hv⟩ := h
  have hmem := List.mem_of_find?_eq_some hp
  have heq := List.find?_some hp
  simp only [decide_eq_true_eq] at heq
  rw [← hv, ← heq]
  exact hmem

theorem flatArg_sound (e : Expr) : ∀ (σ : Nat → Int) (s : FSt),
    satAll σ (flatArg e s).2.out → memoGoodS σ s.memo →
    memoGoodS σ (flatArg e s).2.memo ∧ ev σ (flatArg e s).1 = ev σ e := by
  induction e using exprStrongInd with
  | _ e ih =>
    intro σ s hout hmg
    rw [flatArg] at hout ⊢
    by_cases ha : isAtom e = true
    · simp only [ha, if_true] at hout ⊢
      exact ⟨hmg, trivial⟩
    · simp only [ha, Bool.false_eq_true, if_false] at hout ⊢
      cases hl : lookupMemo s.memo e with
      | some v =>
        simp only [hl] at hout ⊢
        have hment := lookupMemo_mem s.memo e v hl
        have hgv := hmg (e, v) hment
        exact ⟨hmg, by simpa [ev] using hgv⟩
      | none =>
        simp only [hl] at hout ⊢
        have houtn : satAll σ (flatNode e s).2.out := by
          intro c hc
          exact hout c (List.mem_append_left _ hc)
        have hn := flatNode_sound_of σ e (fun x hx => ih x hx σ) s houtn hmg
        have hdefc : ev σ (Expr.comp .eq (.var (flatNode e s).2.counter)
            (flatNode e s).1) ≠ 0 :=
          hout _ (List.mem_append_right _ (List.mem_singleton_self _))
        rw [eq_constraint_sat] at hdefc
        have hvv : σ (flatNode e s).2.counter = ev σ e := by
          rw [← hn.2]
          simpa [ev] using hdefc
        refine ⟨?_, by simpa [ev] using hvv⟩
        intro p hp
        simp only [List.mem_cons] at hp
        rcases hp with rfl | hp
        · exact hvv
        · exact hn.1 p hp

theorem flatTop_sound (c : Expr) (σ : Nat → Int) (s : FSt)
    (hout : satAll σ (flatTop c s).2.out) (hmg : memoGoodS σ s.memo) :
    memoGoodS σ (flatTop c s).2.memo ∧ ev σ (flatTop c s).1 = ev σ c := by
  rw [flatTop] at hout ⊢
  by_cases ha : isAtom c = true
  · simp only [ha, if_true] at hout ⊢
    exact ⟨hmg, trivial⟩
  · simp only [ha, Bool.false_eq_true, if_false] at hout ⊢
    exact flatNode_sound_of σ c (fun x _ => flatArg_sound x σ) s hout hmg

theorem flatTops_sound (cs : List Expr) : ∀ (σ : Nat → Int) (s : FSt),
    satAll σ (flatTops cs s).2.out → memoGoodS σ s.memo →
    memoGoodS σ (flatTops cs s).2.memo ∧
    List.Forall₂ (fun a b => ev σ a = ev σ b) (flatTops cs s).1 cs := by
  induction cs with
  | nil =>
    intro σ s hout hmg
    rw [flatTops]
    exact ⟨hmg, List.Forall₂.nil⟩
  | cons c rest ih =>
    intro σ s hout hmg
    rw [flatTops] at hout ⊢
    have houtc : satAll σ (flatTop c s).2.out :=
      satAll_mono_out (flatTops_mono rest (flatTop c s).2) hout
    have hc := flatTop_sound c σ s houtc hmg
    have hr := ih σ (flatTop c s).2 hout hc.1
    exact ⟨hr.1, List.Forall₂.cons hc.2 hr.2⟩

/-! Completeness of flattening: any assignment of the original variables
extends to the auxiliary variables — each auxiliary takes the value of the
subexpression recorded for it in the memo table — so that all rewritten and
emitted constraints hold. -/

/-- Reverse memo lookup by auxiliary variable. -/
def lookupVar (memo : List (Expr × Nat)) (v : Nat) : Option Expr :=
  (memo.find? (fun p => decide (p.2 = v))).map (fun p => p.1)

/-- The extension of `σ` to auxiliary variables dictated by a memo table:
original variables (below `n`) keep their value, an auxiliary variable takes
the `σ`-value of the subexpression it abbreviates. -/
def auxEnv (σ : Nat → Int) (n : Nat) (memo : List (Expr × Nat)) : Nat → Int :=
  fun v =>
    if v < n then σ v
    else
      match lookupVar memo v with
      | some d => ev σ d
      | none => 0

theorem auxEnv_agree (σ : Nat → Int) (n : Nat) (memo : List (Expr × Nat)) :
    ∀ v, v < n → auxEnv σ n memo v = σ v := by
  intro v hv
  simp [auxEnv, hv]

theorem lookupVar_of_mem (memo : List (Expr × Nat)) (p : Expr × Nat)
    (hp : p ∈ memo) (hdist : memo.Pairwise (fun a b => a.2 ≠ b.2)) :
    lookupVar memo p.2 = some p.1 := by
  induction memo with
  | nil => cases hp
  | cons q rest ih =>
    rcases List.mem_cons.mp hp with rfl | hp2
    · simp [lookupVar, List.find?_cons]
    · have hne : q.2 ≠ p.2 := (List.pairwise_cons.mp hdist).1 p hp2
      have htl := ih hp2 (List.pairwise_cons.mp hdist).2
      simpa [lookupVar, List.find?_cons, hne] using htl

theorem auxEnv_mem (σ : Nat → Int) (n : Nat) (memo : List (Expr × Nat))
    (p : Expr × Nat) (hp : p ∈ memo) (hn : n ≤ p.2)
    (hdist : memo.Pairwise (fun a b => a.2 ≠ b.2)) :
    auxEnv σ n memo p.2 = ev σ p.1 := by
  simp only [auxEnv]
  rw [if_neg (by omega), lookupVar_of_mem memo p hp hdist]

theorem ev_auxEnv_atom (e : Expr) (ha : isAtom e = true) (n : Nat)
    (σ : Nat → Int) (M : List (Expr × Nat)) (hvb : varsBelow e n = true) :
    ev (auxEnv σ n M) e = ev σ e := by
  cases e with
  | var v =>
    simp only [varsBelow, decide_eq_true_eq] at hvb
    simp [ev, auxEnv_agree σ n M v hvb]
  | iconst k => rfl
  | bconst b => rfl
  | comp op l r => simp [isAtom] at ha
  | andE xs => simp [isAtom] at ha
  | orE xs => simp [isAtom] at ha
  | sum xs => simp [isAtom] at ha
  | notE x => simp [isAtom] at ha

theorem flatArgs_complete_of (n : Nat) (σ : Nat → Int) (M : List (Expr × Nat))
    (xs : List Expr)
    (h : ∀ x ∈ xs, ∀ s : FSt, varsBelow x n = true → stWF n s →
      (∀ p ∈ (flatArg x s).2.memo, p ∈ M) →
      satAll (auxEnv σ n M) s.out →
      satAll (auxEnv σ n M) (flatArg x s).2.out ∧
        ev (auxEnv σ n M) (flatArg x s).1 = ev σ x) :
    ∀ s : FSt, varsBelowList xs n = true → stWF n s →
      (∀ p ∈ (flatArgs xs s).2.memo, p ∈ M) →
      satAll (auxEnv σ n M) s.out →
      satAll (auxEnv σ n M) (flatArgs xs s).2.out ∧
      List.Forall₂ (fun a b => ev (auxEnv σ n M) a = ev σ b) (flatArgs xs s).1 xs := by
  induction xs with
  | nil =>
    intro s _ _ _ hout
    rw [flatArgs]
    exact ⟨hout, List.Forall₂.nil⟩
  | cons x rest ih =>
    intro s hvb hs hM hout
    simp only [varsBelowList, Bool.and_eq_true] at hvb
    rw [flatArgs] at hM ⊢
    have hMx : ∀ p ∈ (flatArg x s).2.memo, p ∈ M := by
      intro p hp
      exact hM p ((flatArgs_mono rest (flatArg x s).2).2.1 p hp)
    have hx := h x (List.mem_cons_self x rest) s hvb.1 hs hMx hout
    have hr := ih (fun y hy => h y (List.mem_cons_of_mem x hy)) (flatArg x s).2
      hvb.2 (flatArg_wf x n s hvb.1 hs) hM hx.1
    exact ⟨hr.1, List.Forall₂.cons hx.2 hr.2⟩

theorem flatNode_complete_of (n : Nat) (σ : Nat → Int) (M : List (Expr × Nat))
    (e : Expr)
    (h : ∀ x, sizeOf x < sizeOf e → ∀ s : FSt, varsBelow x n = true → stWF n s →
      (∀ p ∈ (flatArg x s).2.memo, p ∈ M) →
      satAll (auxEnv σ n M) s.out →
      satAll (auxEnv σ n M) (flatArg x s).2.out ∧
        ev (auxEnv σ n M) (flatArg x s).1 = ev σ x) :
    ∀ s : FSt, varsBelow e n = true → stWF n s →
      (∀ p ∈ (flatNode e s).2.memo, p ∈ M) →
      satAll (auxEnv σ n M) s.out →
      satAll (auxEnv σ n M) (flatNode e s).2.out ∧
        ev (auxEnv σ n M) (flatNode e s).1 = ev σ e := by
  intro s hvb hs hM hout
  cases e with
  | iconst k => rw [flatNode_atom (Expr.iconst k) s rfl] at hM ⊢; exact ⟨hout, rfl⟩
  | bconst b => rw [flatNode_atom (Expr.bconst b) s rfl] at hM ⊢; exact ⟨hout, rfl⟩
  | var v =>
    rw [flatNode_atom (Expr.var v) s rfl] at hM ⊢
    exact ⟨hout, ev_auxEnv_atom (Expr.var v) rfl n σ M hvb⟩
  | comp op l r =>
    simp only [varsBelow, Bool.and_eq_true] at hvb
    rw [flatNode] at hM ⊢
    have hMl : ∀ p ∈ (flatArg l s).2.memo, p ∈ M := by
      intro p hp
      exact hM p ((flatArg_mono r (flatArg l s).2).2.1 p hp)
    have hl := h l (by simp only [Expr.comp.sizeOf_spec]; omega) s hvb.1 hs hMl hout
    have hr := h r (by simp only [Expr.comp.sizeOf_spec]; omega) (flatArg l s).2
      hvb.2 (flatArg_wf l n s hvb.1 hs) hM hl.1
    refine ⟨hr.1, ?_⟩
    simp only [ev, hl.2, hr.2]
  | andE xs =>
    rw [flatNode] at hM ⊢
    have hx := flatArgs_complete_of n σ M xs (fun x hx => h x (sizeOf_lt_andE hx))
      s hvb hs hM hout
    refine ⟨hx.1, ?_⟩
    simp only [ev]
    rw [evAll_congr _ σ _ xs hx.2]
  | orE xs =>
    rw [flatNode] at hM ⊢
    have hx := flatArgs_complete_of n σ M xs (fun x hx => h x (sizeOf_lt_orE hx))
      s hvb hs hM hout
    refine ⟨hx.1, ?_⟩
    simp only [ev]
    rw [evAny_congr _ σ _ xs hx.2]
  | sum xs =>
    rw [flatNode] at hM ⊢
    have hx := flatArgs_complete_of n σ M xs (fun x hx => h x (sizeOf_lt_sumE hx))
      s hvb hs hM hout
    refine ⟨hx.1, ?_⟩
    simp only [ev]
    rw [evSum_congr _ σ _ xs hx.2]
  | notE x =>
    rw [flatNode] at hM ⊢
    have hx := h x (by simp only [Expr.notE.sizeOf_spec]; omega) s hvb hs hM hout
    refine ⟨hx.1, ?_⟩
    simp only [ev, hx.2]

theorem flatArg_complete (e : Expr) : ∀ (n : Nat) (σ : Nat → Int)
    (M : List (Expr × Nat)) (s : FSt),
    varsBelow e n = true → stWF n s →
    (∀ p ∈ (flatArg e s).2.memo, p ∈ M) →
    (∀ p ∈ M, n ≤ p.2) → M.Pairwise (fun a b => a.2 ≠ b.2) →
    satAll (auxEnv σ n M) s.out →
    satAll (auxEnv σ n M) (flatArg e s).2.out ∧
      ev (auxEnv σ n M) (flatArg e s).1 = ev σ e := by
  induction e using exprStrongInd with
  | _ e ih =>
    intro n σ M s hvb hs hM hMn hMd hout
    rw [flatArg] at hM ⊢
    by_cases ha : isAtom e = true
    · simp only [ha, if_true] at hM ⊢
      exact ⟨hout, ev_auxEnv_atom e ha n σ M hvb⟩
    · simp only [ha, Bool.false_eq_true, if_false] at hM ⊢
      cases hl : lookupMemo s.memo e with
      | some v =>
        simp only [hl] at hM ⊢
        have hment : (e, v) ∈ M := hM (e, v) (lookupMemo_mem s.memo e v hl)
        have hnv : n ≤ v := hMn (e, v) hment
        have hvv := auxEnv_mem σ n M (e, v) hment hnv hMd
        exact ⟨hout, by simpa [ev] using hvv⟩
      | none =>
        simp only [hl] at hM ⊢
        have hMn2 : ∀ p ∈ (flatNode e s).2.memo, p ∈ M := by
          intro p hp
          exact hM p (List.mem_cons_of_mem _ hp)
        have hn := flatNode_complete_of n σ M e
          (fun x hx s2 hvb2 hs2 hM2 hout2 =>
            ih x hx n σ M s2 hvb2 hs2 hM2 hMn hMd hout2) s hvb hs hMn2 hout
        have hment : (e, (flatNode e s).2.counter) ∈ M :=
          hM _ (List.mem_cons_self _ _)
        have hnv : n ≤ (flatNode e s).2.counter := hMn _ hment
        have hvv := auxEnv_mem σ n M (e, (flatNode e s).2.counter) hment hnv hMd
        refine ⟨?_, by simpa [ev] using hvv⟩
        intro c hc
        simp only [List.mem_append, List.mem_singleton] at hc
        rcases hc with hc | rfl
        · exact hn.1 c hc
        · rw [eq_constraint_sat]
          have h1 : ev (auxEnv σ n M) (Expr.var (flatNode e s).2.counter) =
              ev σ e := by simpa [ev] using hvv
          rw [h1, hn.2]

theorem flatTop_complete (c : Expr) (n : Nat) (σ : Nat → Int)
    (M : List (Expr × Nat)) (s : FSt)
    (hvb : varsBelow c n = true) (hs : stWF n s)
    (hM : ∀ p ∈ (flatTop c s).2.memo, p ∈ M)
    (hMn : ∀ p ∈ M, n ≤ p.2) (hMd : M.Pairwise (fun a b => a.2 ≠ b.2))
    (hout : satAll (auxEnv σ n M) s.out) :
    satAll (auxEnv σ n M) (flatTop c s).2.out ∧
      ev (auxEnv σ n M) (flatTop c s).1 = ev σ c := by
  rw [flatTop] at hM ⊢
  by_cases ha : isAtom c = true
  · simp only [ha, if_true] at hM ⊢
    exact ⟨hout, ev_auxEnv_atom c ha n σ M hvb⟩
  · simp only [ha, Bool.false_eq_true, if_false] at hM ⊢
    exact flatNode_complete_of n σ M c
      (fun x _ s2 hvb2 hs2 hM2 hout2 =>
        flatArg_complete x n σ M s2 hvb2 hs2 hM2 hMn hMd hout2) s hvb hs hM hout

theorem flatTops_complete (cs : List Expr) : ∀ (n : Nat) (σ : Nat → Int)
    (M : List (Expr × Nat)) (s : FSt),
    varsBelowList cs n = true → stWF n s →
    (∀ p ∈ (flatTops cs s).2.memo, p ∈ M) →
    (∀ p ∈ M, n ≤ p.2) → M.Pairwise (fun a b => a.2 ≠ b.2) →
    satAll (auxEnv σ n M) s.out →
    satAll (auxEnv σ n M) (flatTops cs s).2.out ∧
    List.Forall₂ (fun a b => ev (auxEnv σ n M) a = ev σ b) (flatTops cs s).1 cs := by
  induction cs with
  | nil =>
    intro n σ M s _ _ _ _ _ hout
    rw [flatTops]
    exact ⟨hout, List.Forall₂.nil⟩
  | cons c rest ih =>
    intro n σ M s hvb hs hM hMn hMd hout
    simp only [varsBelowList, Bool.and_eq_true] at hvb
    rw [flatTops] at hM ⊢
    have hMc : ∀ p ∈ (flatTop c s).2.memo, p ∈ M := by
      intro p hp
      exact hM p ((flatTops_mono rest (flatTop c s).2).2.1 p hp)
    have hc := flatTop_complete c n σ M s hvb.1 hs hMc hMn hMd hout
    have hr := ih n σ M (flatTop c s).2 hvb.2 (flatTop_wf c n s hvb.1 hs)
      hM hMn hMd hc.1
    exact ⟨hr.1, List.Forall₂.cons hc.2 hr.2⟩

theorem satAll_forall₂_fwd {τ1 τ2 : Nat → Int} {as bs : List Expr}
    (h : List.Forall₂ (fun a b => ev τ1 a = ev τ2 b) as bs)
    (hs : satAll τ2 bs) : satAll τ1 as := by
  induction h with
  | nil => intro c hc; cases hc
  | cons hab htail ih =>
    intro c hc
    rcases List.mem_cons.mp hc with rfl | hc2
    · rw [hab]
      exact hs _ (List.mem_cons_self _ _)
    · exact ih (fun d hd => hs d (List.mem_cons_of_mem _ hd)) c hc2

theorem satAll_forall₂_bwd {τ1 τ2 : Nat → Int} {as bs : List Expr}
    (h : List.Forall₂ (fun a b => ev τ1 a = ev τ2 b) as bs)
    (hs : satAll τ1 as) : satAll τ2 bs := by
  induction h with
  | nil => intro c hc; cases hc
  | cons hab htail ih =>
    intro c hc
    rcases List.mem_cons.mp hc with rfl | hc2
    · rw [← hab]
      exact hs _ (List.mem_cons_self _ _)
    · exact ih (fun d hd => hs d (List.mem_cons_of_mem _ hd)) c hc2

theorem varsBelowList_normListE (L : List Expr) (n : Nat)
    (h : varsBelowList L n = true) : varsBelowList (normListE L) n = true := by
  rw [normListE_eq, varsBelowList_eq, List.all_map, List.all_eq_true]
  rw [varsBelowList_eq, List.all_eq_true] at h
  exact fun c hc => varsBelow_normE c n (h c hc)

theorem satAll_normListE (σ : Nat → Int) (L : List Expr) :
    satAll σ (normListE L) ↔ satAll σ L := by
  rw [normListE_eq]
  constructor
  · intro h c hc
    have := h (normE c) (List.mem_map_of_mem normE hc)
    rwa [normE_ev c σ] at this
  · intro h c hc
    rw [List.mem_map] at hc
    obtain ⟨d, hd, rfl⟩ := hc
    rw [normE_ev d σ]
    exact h d hd

/-- Claim C1: the transformation pipeline is equisatisfiable with its input.
For a constraint list over variables below `n`, an assignment of the original
variables satisfies the list exactly when it extends (keeping the original
variables fixed, auxiliary variables existentially quantified) to an
assignment satisfying `flatten(normalize(L))` with auxiliaries numbered
from `n`. -/
theorem pipeline_equisat (L : List Expr) (n : Nat) (σ : Nat → Int)
    (h : varsBelowList L n = true) :
    satAll σ L ↔ ∃ σ2 : Nat → Int, (∀ v, v < n → σ2 v = σ v) ∧
      satAll σ2 (transformPipeline L n) := by
  have hvbn : varsBelowList (normListE L) n = true := varsBelowList_normListE L n h
  have hwf0 : stWF n ⟨n, [], []⟩ :=
    ⟨le_refl n, fun p hp => absurd hp (List.not_mem_nil p), List.Pairwise.nil⟩
  constructor
  · intro hsat
    have hsatn : satAll σ (normListE L) := (satAll_normListE σ L).mpr hsat
    have hwfF : stWF n (flatTops (normListE L) ⟨n, [], []⟩).2 :=
      flatTops_wf (normListE L) n ⟨n, [], []⟩ hvbn hwf0
    have hMn : ∀ p ∈ (flatTops (normListE L) ⟨n, [], []⟩).2.memo, n ≤ p.2 :=
      fun p hp => (hwfF.2.1 p hp).1
    have hMd := hwfF.2.2
    have hout0 : satAll (auxEnv σ n (flatTops (normListE L) ⟨n, [], []⟩).2.memo)
        (⟨n, [], []⟩ : FSt).out := by
      intro c hc
      exact absurd hc (List.not_mem_nil c)
    have hC := flatTops_complete (normListE L) n σ
      (flatTops (normListE L) ⟨n, [], []⟩).2.memo ⟨n, [], []⟩ hvbn hwf0
      (fun p hp => hp) hMn hMd hout0
    refine ⟨auxEnv σ n (flatTops (normListE L) ⟨n, [], []⟩).2.memo,
      auxEnv_agree σ n _, ?_⟩
    intro c hc
    simp only [transformPipeline, flattenList, List.mem_append] at hc
    rcases hc with hc1 | hc2
    · exact satAll_forall₂_fwd hC.2 hsatn c hc1
    · exact hC.1 c hc2
  · rintro ⟨σ2, hag, hsat2⟩
    simp only [transformPipeline, flattenList] at hsat2
    have hout : satAll σ2 (flatTops (normListE L) ⟨n, [], []⟩).2.out := by
      intro c hc
      exact hsat2 c (List.mem_append_right _ hc)
    have hsat1 : satAll σ2 (flatTops (normListE L) ⟨n, [], []⟩).1 := by
      intro c hc
      exact hsat2 c (List.mem_append_left _ hc)
    have hS := flatTops_sound (normListE L) σ2 ⟨n, [], []⟩ hout
      (fun p hp => absurd hp (List.not_mem_nil p))
    have hsatn : satAll σ2 (normListE L) := satAll_forall₂_bwd hS.2 hsat1
    have hvbs : ∀ c ∈ normListE L, varsBelow c n = true := by
      rw [varsBelowList_eq, List.all_eq_true] at hvbn
      exact hvbn
    have hsatnσ : satAll σ (normListE L) := by
      intro c hc
      rw [← ev_agree c n σ σ2 (hvbs c hc) hag]
      exact hsatn c hc
    exact (satAll_normListE σ L).mp hsatnσ

/-- Witness for claim C1 on the constraint `x0 + x1 == 5` with original
variables below 2 and the zero assignment. -/
theorem pipeline_equisat_witness :
    varsBelowList [Expr.comp .eq (.sum [.var 0, .var 1]) (.iconst 5)] 2 = true ∧
    (satAll (fun _ => 0) [Expr.comp .eq (.sum [.var 0, .var 1]) (.iconst 5)] ↔
      ∃ σ2 : Nat → Int, (∀ v, v < 2 → σ2 v = (fun _ => (0 : Int)) v) ∧
        satAll σ2 (transformPipeline
          [Expr.comp .eq (.sum [.var 0, .var 1]) (.iconst 5)] 2)) :=
  ⟨by decide,
    pipeline_equisat [Expr.comp .eq (.sum [.var 0, .var 1]) (.iconst 5)] 2
      (fun _ => 0) (by decide)⟩

/-! ## Passes never mutate existing expressions

Modelled from the spec: expressions live in a per-model arena and are
referenced by stable index; a pass reads its input from the arena and
allocates the expressions it produces by appending, never overwriting an
existing slot — the arena is append-only memory, so every expression
reachable before a pass is bit-for-bit unchanged after it. -/

/-- An arena slot: an expression node whose children are arena indices. -/
inductive ANode where
  | nconst (k : Int)
  | nbconst (b : Bool)
  | nvar (v : Nat)
  | ncomp (op : CmpOp) (l r : Nat)
  | nand (cs : List Nat)
  | nor (cs : List Nat)
  | nsum (cs : List Nat)
  | nnot (c : Nat)

/-- The expression arena: a list of nodes addressed by index. -/
abbrev Arena := List ANode

mutual
/-- Allocate an expression tree into the arena bottom-up, appending one node
per subexpression and returning the root index. -/
def encodeE (A : Arena) : Expr → Arena × Nat
  | .iconst k => (A ++ [.nconst k], A.length)
  | .bconst b => (A ++ [.nbconst b], A.length)
  | .var v => (A ++ [.nvar v], A.length)
  | .comp op l r =>
    let pl := encodeE A l
    let pr := encodeE pl.1 r
    (pr.1 ++ [.ncomp op pl.2 pr.2], pr.1.length)
  | .andE xs =>
    let p := encodeList A xs
    (p.1 ++ [.nand p.2], p.1.length)
  | .orE xs =>
    let p := encodeList A xs
    (p.1 ++ [.nor p.2], p.1.length)
  | .sum xs =>
    let p := encodeList A xs
    (p.1 ++ [.nsum p.2], p.1.length)
  | .notE x =>
    let p := encodeE A x
    (p.1 ++ [.nnot p.2], p.1.length)
def encodeList (A : Arena) : List Expr → Arena × List Nat
  | [] => (A, [])
  | x :: xs =>
    let px := encodeE A x
    let pr := encodeList px.1 xs
    (pr.1, px.2 :: pr.2)
end

mutual
/-- Read an expression tree back from the arena (fuel-bounded). -/
def decodeE (A : Arena) : Nat → Nat → Option Expr
  | 0, _ => none
  | fuel + 1, i =>
    match A.get? i with
    | none => none
    | some (.nconst k) => some (.iconst k)
    | some (.nbconst b) => some (.bconst b)
    | some (.nvar v) => some (.var v)
    | some (.ncomp op il ir) =>
      match decodeE A fuel il, decodeE A fuel ir with
      | some l, some r => some (.comp op l r)
      | _, _ => none
    | some (.nand cs) =>
      match decodeList A fuel cs with
      | some xs => some (.andE xs)
      | none => none
    | some (.nor cs) =>
      match decodeList A fuel cs with
      | some xs => some (.orE xs)
      | none => none
    | some (.nsum cs) =>
      match decodeList A fuel cs with
      | some xs => some (.sum xs)
      | none => none
    | some (.nnot c) =>
      match decodeE A fuel c with
      | some x => some (.notE x)
      | none => none
  termination_by fuel i => (fuel, 0)
def decodeList (A : Arena) : Nat → List Nat → Option (List Expr)
  | _, [] => some []
  | fuel, i :: is =>
    match decodeE A fuel i, decodeList A fuel is with
    | some x, some xs => some (x :: xs)
    | _, _ => none
  termination_by fuel is => (fuel, is.length + 1)
end

/-- Modelled from the spec: a pass runs on the arena by decoding its input
expression, transforming it, and allocating the result by appending. -/
def arenaPass (f : Expr → Expr) (A : Arena) (i : Nat) : Arena × Nat :=
  match decodeE A A.length i with
  | none => (A, i)
  | some e => encodeE A (f e)

/-- Modelled from the spec: the flattening pass on the arena decodes the
constraint list, flattens it with auxiliaries from `n`, and allocates all
output constraints by appending. -/
def arenaFlattenPass (A : Arena) (is : List Nat) (n : Nat) : Arena × List Nat :=
  match decodeList A A.length is with
  | none => (A, is)
  | some L => encodeList A (flattenList L n)

theorem encodeList_prefix_of (xs : List Expr)
    (h : ∀ x ∈ xs, ∀ A : Arena, A <+: (encodeE A x).1) :
    ∀ A : Arena, A <+: (encodeList A xs).1 := by
  induction xs with
  | nil => intro A; rw [encodeList]
  | cons x rest ih =>
    intro A
    rw [encodeList]
    exact List.IsPrefix.trans (h x (List.mem_cons_self x rest) A)
      (ih (fun y hy => h y (List.mem_cons_of_mem x hy)) (encodeE A x).1)

/-- Expression allocation only appends to the arena. -/
theorem encodeE_prefix (e : Expr) : ∀ A : Arena, A <+: (encodeE A e).1 := by
  induction e using exprStrongInd with
  | _ e ih =>
    intro A
    cases e with
    | iconst k => rw [encodeE]; exact List.prefix_append A _
    | bconst b => rw [encodeE]; exact List.prefix_append A _
    | var v => rw [encodeE]; exact List.prefix_append A _
    | comp op l r =>
      rw [encodeE]
      refine List.IsPrefix.trans (ih l (by simp only [Expr.comp.sizeOf_spec]; omega) A) ?_
      refine List.IsPrefix.trans
        (ih r (by simp only [Expr.comp.sizeOf_spec]; omega) (encodeE A l).1) ?_
      exact List.prefix_append _ _
    | andE xs =>
      rw [encodeE]
      exact List.IsPrefix.trans
        (encodeList_prefix_of xs (fun x hx => ih x (sizeOf_lt_andE hx)) A)
        (List.prefix_append _ _)
    | orE xs =>
      rw [encodeE]
      exact List.IsPrefix.trans
        (encodeList_prefix_of xs (fun x hx => ih x (sizeOf_lt_orE hx)) A)
        (List.prefix_append _ _)
    | sum xs =>
      rw [encodeE]
      exact List.IsPrefix.trans
        (encodeList_prefix_of xs (fun x hx => ih x (sizeOf_lt_sumE hx)) A)
        (List.prefix_append _ _)
    | notE x =>
      rw [encodeE]
      exact List.IsPrefix.trans
        (ih x (by simp only [Expr.notE.sizeOf_spec]; omega) A)
        (List.prefix_append _ _)

theorem encodeList_prefix (xs : List Expr) (A : Arena) :
    A <+: (encodeList A xs).1 :=
  encodeList_prefix_of xs (fun x _ => encodeE_prefix x) A

/-- Claim C3: transformation passes never mutate an input expression. In the
arena model of the spec, running any tree-to-tree pass — in particular the
normalize pass — and running the flattening pass only ever appends to the
arena: every arena slot reachable before the pass holds exactly the same
expression node after it, and the pass's outputs are newly allocated nodes. -/
theorem passes_append_only (f : Expr → Expr) (A : Arena) (i : Nat)
    (is : List Nat) (n : Nat) :
    A <+: (arenaPass f A i).1 ∧ A <+: (arenaPass normE A i).1 ∧
    A <+: (arenaFlattenPass A is n).1 := by
  refine ⟨?_, ?_, ?_⟩
  · rw [arenaPass]
    cases decodeE A A.length i with
    | none => exact List.prefix_refl A
    | some e => exact encodeE_prefix (f e) A
  · rw [arenaPass]
    cases decodeE A A.length i with
    | none => exact List.prefix_refl A
    | some e => exact encodeE_prefix (normE e) A
  · rw [arenaFlattenPass]
    cases decodeList A A.length is with
    | none => exact List.prefix_refl A
    | some L => exact encodeList_prefix (flattenList L n) A
